import Mathlib

/-!
# Verification of the BFF ↔ Laravel HMAC protocol core

This development embeds the protocol core of the `laravel-nextjs-rbac`
repository in Lean 4:

* the signing side (`apps/web/src/lib/security/hmac.ts`): canonical body
  hashing (`hashBody`, `sortObjectKeys`) and `generateSignature`;
* the validating side (`app/Helpers/HmacValidator.php`): the ordered
  validation pipeline (`validate`, `validateHeaders`, `validateBffId`,
  `validateTimestamp`, `generatePayload`, `hashBody`, `sortArrayKeys`,
  `validateSignature`);
* the proxy route handler (`apps/web/src/app/api/v1/[...path]/route.ts`):
  `validatePathSegments` and the local phase of `proxyRequest` (everything
  decided before the upstream `fetch`), plus the response-relay phase that
  rotates the `auth_token` cookie.

Machine-level primitives that the repository calls from its platform's
standard library (SHA-256, HMAC-SHA256) are modelled as function
parameters shared by both sides; JSON text encoding/decoding is modelled
executably over an inductive `Json` type whose strings are Unicode scalar
sequences.  All definitions are executable and all concrete examples are
settled by `decide`/`rfl`.
-/

set_option maxHeartbeats 4000000

/-- JSON-compatible values, as exchanged between the Next.js BFF and the
Laravel API.  Object entries keep their insertion order, as JavaScript
objects and PHP associative arrays do. -/
inductive Json where
  | null : Json
  | bool (b : Bool) : Json
  | num (n : Int) : Json
  | str (s : String) : Json
  | arr (items : List Json) : Json
  | obj (entries : List (String × Json)) : Json

mutual

/-- Structural equality test on `Json` (needed because `deriving DecidableEq`
does not handle the nested `List` occurrences). -/
def Json.beq : Json → Json → Bool
  | .null, .null => true
  | .bool a, .bool b => a == b
  | .num a, .num b => a == b
  | .str a, .str b => a == b
  | .arr xs, .arr ys => Json.beqList xs ys
  | .obj xs, .obj ys => Json.beqObj xs ys
  | _, _ => false

/-- Pointwise `Json.beq` on lists. -/
def Json.beqList : List Json → List Json → Bool
  | [], [] => true
  | x :: xs, y :: ys => Json.beq x y && Json.beqList xs ys
  | _, _ => false

/-- Pointwise `Json.beq` on object entry lists. -/
def Json.beqObj : List (String × Json) → List (String × Json) → Bool
  | [], [] => true
  | (k, v) :: xs, (k', v') :: ys => k == k' && Json.beq v v' && Json.beqObj xs ys
  | _, _ => false

end

mutual

theorem Json.beq_iff : ∀ a b : Json, Json.beq a b = true ↔ a = b
  | .null, b => by cases b <;> simp [Json.beq]
  | .bool x, b => by cases b <;> simp [Json.beq]
  | .num x, b => by cases b <;> simp [Json.beq]
  | .str x, b => by cases b <;> simp [Json.beq]
  | .arr xs, b => by
      cases b <;> simp [Json.beq]
      exact Json.beqList_iff xs _
  | .obj xs, b => by
      cases b <;> simp [Json.beq]
      exact Json.beqObj_iff xs _

theorem Json.beqList_iff : ∀ xs ys : List Json, Json.beqList xs ys = true ↔ xs = ys
  | [], ys => by cases ys <;> simp [Json.beqList]
  | x :: xs, ys => by
      cases ys with
      | nil => simp [Json.beqList]
      | cons y ys =>
          simp [Json.beqList, Bool.and_eq_true, Json.beq_iff x y, Json.beqList_iff xs ys]

theorem Json.beqObj_iff : ∀ xs ys : List (String × Json), Json.beqObj xs ys = true ↔ xs = ys
  | [], ys => by cases ys <;> simp [Json.beqObj]
  | (k, v) :: xs, ys => by
      cases ys with
      | nil => simp [Json.beqObj]
      | cons y ys =>
          obtain ⟨k', v'⟩ := y
          simp [Json.beqObj, Bool.and_eq_true, Json.beq_iff v v', Json.beqObj_iff xs ys,
            and_assoc]

end

instance : DecidableEq Json := fun a b =>
  decidable_of_iff (Json.beq a b = true) (Json.beq_iff a b)

/-! ## Key ordering

Both `Array.prototype.sort()` with its default comparator (JavaScript) and
`ksort` under `SORT_REGULAR` (PHP, for non-numeric string keys) order
strings lexicographically by code unit; for the strings the protocol can
produce this is lexicographic comparison of Unicode scalar values. -/

/-- Strict lexicographic order on character lists by code point. -/
def keyLt : List Char → List Char → Bool
  | [], [] => false
  | [], _ :: _ => true
  | _ :: _, [] => false
  | c :: cs, d :: ds => decide (c.toNat < d.toNat) || (c == d && keyLt cs ds)

theorem keyLt_asymm : ∀ a b : List Char, keyLt a b = true → keyLt b a = false
  | [], b => by cases b <;> simp [keyLt]
  | a :: as, b => by
      cases b with
      | nil => simp [keyLt]
      | cons c cs =>
          simp only [keyLt, Bool.or_eq_true, Bool.and_eq_true, beq_iff_eq, decide_eq_true_eq,
            Bool.or_eq_false_iff, Bool.and_eq_false_iff, decide_eq_false_iff_not,
            beq_eq_false_iff_ne, ne_eq]
          rintro (h | ⟨rfl, h⟩)
          · refine ⟨by omega, .inl ?_⟩
            intro hh
            rw [hh] at h
            omega
          · exact ⟨by omega, .inr (keyLt_asymm as cs h)⟩

theorem keyLt_trans : ∀ a b c : List Char,
    keyLt a b = true → keyLt b c = true → keyLt a c = true
  | [], b, c => by
      cases b <;> cases c <;> simp [keyLt]
  | a :: as, b, c => by
      cases b with
      | nil => simp [keyLt]
      | cons b bs =>
          cases c with
          | nil => simp [keyLt]
          | cons c cs =>
              simp only [keyLt, Bool.or_eq_true, Bool.and_eq_true, beq_iff_eq,
                decide_eq_true_eq]
              rintro (h₁ | ⟨rfl, h₁⟩) (h₂ | ⟨rfl, h₂⟩)
              · exact .inl (by omega)
              · exact .inl h₁
              · exact .inl h₂
              · exact .inr ⟨rfl, keyLt_trans as bs cs h₁ h₂⟩

theorem keyLt_connex : ∀ a b : List Char,
    keyLt a b = false → keyLt b a = false → a = b
  | [], b => by cases b <;> simp [keyLt]
  | a :: as, b => by
      cases b with
      | nil => simp [keyLt]
      | cons b bs =>
          simp only [keyLt, Bool.or_eq_false_iff, Bool.and_eq_false_iff,
            decide_eq_false_iff_not, beq_eq_false_iff_ne, ne_eq, not_lt]
          rintro ⟨h₁, h₂⟩ ⟨h₃, h₄⟩
          have hval : a.toNat = b.toNat := by omega
          have hab : a = b := by
            apply Char.eq_of_val_eq
            have hv : a.val.toNat = b.val.toNat := hval
            exact UInt32.ext hv
          subst hab
          rcases h₂ with h | h
          · exact absurd rfl h
          · rcases h₄ with h' | h'
            · exact absurd rfl h'
            · exact congrArg (a :: ·) (keyLt_connex as bs h h')

/-- Non-strict key order on object entries: `p` may precede `q`. -/
def pairLe (p q : String × Json) : Prop := keyLt q.1.data p.1.data = false

instance : DecidableRel pairLe := fun _ _ =>
  inferInstanceAs (Decidable (_ = false))

instance : IsTotal (String × Json) pairLe :=
  ⟨fun p q => by
    unfold pairLe
    rcases h : keyLt q.1.data p.1.data with _ | _
    · exact .inl rfl
    · exact .inr (keyLt_asymm _ _ h)⟩

instance : IsTrans (String × Json) pairLe :=
  ⟨fun p q r hpq hqr => by
    unfold pairLe at *
    rcases h : keyLt r.1.data p.1.data with _ | _
    · rfl
    · exfalso
      rcases h' : keyLt q.1.data r.1.data with _ | _
      · have heq := keyLt_connex _ _ hqr h'
        rw [heq] at h
        rw [h] at hpq
        exact Bool.noConfusion hpq
      · have := keyLt_trans _ _ _ h' h
        rw [this] at hpq
        exact Bool.noConfusion hpq⟩

/-- Strict key order on object entries. -/
def pairLt (p q : String × Json) : Prop := keyLt p.1.data q.1.data = true

/-! ## Decimal printing (JS `Number.prototype.toString`, `JSON.stringify` on
integers) and decimal reading (PHP `(int)` cast) -/

/-- Lowercase hexadecimal digit. -/
def hexDigitChar (n : Nat) : Char :=
  match n with
  | 0 => '0' | 1 => '1' | 2 => '2' | 3 => '3' | 4 => '4'
  | 5 => '5' | 6 => '6' | 7 => '7' | 8 => '8' | 9 => '9'
  | 10 => 'a' | 11 => 'b' | 12 => 'c' | 13 => 'd' | 14 => 'e'
  | _ => 'f'

/-- Decimal digit character. -/
def decDigitChar (n : Nat) : Char := hexDigitChar (n % 10)

/-- Most-significant-first decimal digits of `n`; empty for `n = 0`.
Fuel-based so that the kernel can evaluate it. -/
def natDigitsAux : Nat → Nat → List Char
  | 0, _ => []
  | _ + 1, 0 => []
  | fuel + 1, n + 1 => natDigitsAux fuel ((n + 1) / 10) ++ [decDigitChar ((n + 1) % 10)]

/-- Decimal rendering of a natural number, as produced by JavaScript's
`Number.prototype.toString()` on a whole number. -/
def natToDecimal (n : Nat) : List Char :=
  if n = 0 then ['0'] else natDigitsAux n n

/-- Decimal rendering of an integer. -/
def intToDecimal (i : Int) : List Char :=
  if i < 0 then '-' :: natToDecimal i.natAbs else natToDecimal i.toNat

/-- Greedy decimal-digit accumulator: reads digits until the first
non-digit, like PHP's `(int)` string cast after the optional sign. -/
def decDigitsVal (acc : Nat) : List Char → Nat
  | [] => acc
  | c :: cs => if c.isDigit then decDigitsVal (acc * 10 + (c.toNat - 48)) cs else acc

/-- PHP `(int)` cast of a string: optional sign, then greedy digits,
ignoring any trailing garbage. -/
def phpIntCast (s : List Char) : Int :=
  match s with
  | [] => 0
  | c :: rest =>
      if c = '-' then -(decDigitsVal 0 rest : Int)
      else if c = '+' then (decDigitsVal 0 rest : Int)
      else (decDigitsVal 0 (c :: rest) : Int)

theorem natDigitsAux_all_digits : ∀ fuel n, ∀ c ∈ natDigitsAux fuel n, c.isDigit = true
  | 0, _ => by simp [natDigitsAux]
  | _ + 1, 0 => by simp [natDigitsAux]
  | fuel + 1, n + 1 => by
      intro c hc
      simp only [natDigitsAux, List.mem_append, List.mem_singleton] at hc
      rcases hc with h | rfl
      · exact natDigitsAux_all_digits fuel ((n + 1) / 10) c h
      · have h10 : (n + 1) % 10 < 10 := Nat.mod_lt _ (by omega)
        revert h10
        unfold decDigitChar
        generalize (n + 1) % 10 = d
        intro h10
        interval_cases d <;> decide

theorem decDigitsVal_append (xs ys : List Char) (acc : Nat)
    (h : ∀ c ∈ xs, c.isDigit = true) :
    decDigitsVal acc (xs ++ ys) = decDigitsVal (decDigitsVal acc xs) ys := by
  induction xs generalizing acc with
  | nil => rfl
  | cons c cs ih =>
      have hc : c.isDigit = true := h c (List.mem_cons_self _ _)
      simp only [List.cons_append, decDigitsVal, hc, if_true]
      exact ih _ fun d hd => h d (List.mem_cons_of_mem _ hd)

theorem decDigitsVal_natDigitsAux : ∀ fuel n acc, n ≤ fuel →
    decDigitsVal acc (natDigitsAux fuel n) = acc * 10 ^ (natDigitsAux fuel n).length + n
  | 0, n, acc => by
      intro h
      interval_cases n
      simp [natDigitsAux, decDigitsVal]
  | fuel + 1, 0, acc => by
      intro _
      simp [natDigitsAux, decDigitsVal]
  | fuel + 1, n + 1, acc => by
      intro h
      have hd : (n + 1) / 10 ≤ fuel := by omega
      have hall := natDigitsAux_all_digits fuel ((n + 1) / 10)
      have hdig : (decDigitChar ((n + 1) % 10)).isDigit = true := by
        have h10 : (n + 1) % 10 < 10 := Nat.mod_lt _ (by omega)
        revert h10
        unfold decDigitChar
        generalize (n + 1) % 10 = d
        intro h10
        interval_cases d <;> decide
      have htod : (decDigitChar ((n + 1) % 10)).toNat - 48 = (n + 1) % 10 := by
        have h10 : (n + 1) % 10 < 10 := Nat.mod_lt _ (by omega)
        revert h10
        unfold decDigitChar
        generalize (n + 1) % 10 = d
        intro h10
        interval_cases d <;> decide
      simp only [natDigitsAux, decDigitsVal_append _ _ _ hall, List.length_append,
        List.length_singleton]
      rw [decDigitsVal_natDigitsAux fuel ((n + 1) / 10) acc hd]
      simp only [decDigitsVal, hdig, if_true, htod]
      have := Nat.div_add_mod (n + 1) 10
      ring_nf
      omega

theorem decDigitsVal_natToDecimal (n : Nat) : decDigitsVal 0 (natToDecimal n) = n := by
  unfold natToDecimal
  by_cases h : n = 0
  · subst h; decide
  · simp only [h, if_false]
    rw [decDigitsVal_natDigitsAux n n 0 le_rfl]
    omega

theorem natToDecimal_head_digit (n : Nat) :
    ∀ c ∈ natToDecimal n, c.isDigit = true := by
  unfold natToDecimal
  by_cases h : n = 0
  · subst h; intro c hc; simp at hc; subst hc; decide
  · simp only [h, if_false]
    exact natDigitsAux_all_digits n n

theorem phpIntCast_natToDecimal (n : Nat) : phpIntCast (natToDecimal n) = n := by
  have hall := natToDecimal_head_digit n
  have hv := decDigitsVal_natToDecimal n
  rcases hh : natToDecimal n with _ | ⟨c, cs⟩
  · rw [hh] at hv
    simp only [decDigitsVal] at hv
    subst hv
    rw [show natToDecimal 0 = ['0'] from rfl] at hh
    exact absurd hh (by simp)
  · have hc : c.isDigit = true := by
      apply hall; rw [hh]; exact List.mem_cons_self _ _
    have hcm : c ≠ '-' := by rintro rfl; exact absurd hc (by decide)
    have hcp : c ≠ '+' := by rintro rfl; exact absurd hc (by decide)
    rw [hh] at hv
    simp only [phpIntCast, hcm, hcp, if_false, hv]

/-! ## The signing-side canonicalizer (`sortObjectKeys` in
`apps/web/src/lib/security/hmac.ts`) -/

namespace Hmac

mutual

/-- `sortObjectKeys` from `hmac.ts`: scalars and `null` unchanged, arrays
mapped recursively in order, objects re-emitted with keys in ascending
code-point order and values canonicalized recursively.  One platform
quirk is not modelled: a real JavaScript object enumerates integer-like
keys (canonical array indices) ahead of all others in ascending numeric
order regardless of insertion order, so for objects carrying such keys
the real serialized output can differ from pure code-point sorting; the
cross-language agreement theorems below exclude numeric keys
(`noNumericKeys`), under which the two orders coincide. -/
def sortObjectKeys : Json → Json
  | .null => .null
  | .bool b => .bool b
  | .num n => .num n
  | .str s => .str s
  | .arr items => .arr (sortObjectKeysList items)
  | .obj entries => .obj (List.insertionSort pairLe (sortObjectKeysEntries entries))

/-- `obj.map(sortObjectKeys)` on an array. -/
def sortObjectKeysList : List Json → List Json
  | [] => []
  | x :: xs => sortObjectKeys x :: sortObjectKeysList xs

/-- Recursive canonicalization of each value of an object entry list. -/
def sortObjectKeysEntries : List (String × Json) → List (String × Json)
  | [] => []
  | (k, v) :: xs => (k, sortObjectKeys v) :: sortObjectKeysEntries xs

end

/-- JavaScript truthiness of a JSON value (`!body`): `null`, `false`, `0`
and the empty string are falsy; every other value, including `{}` and
`[]`, is truthy. -/
def jsTruthy : Json → Bool
  | .null => false
  | .bool b => b
  | .num n => n != 0
  | .str s => s != ""
  | .arr _ => true
  | .obj _ => true

/-- The character class of JavaScript's `\s` regular-expression escape
(as used by `.replace(/\s/g, '')` in `hashBody`). -/
def jsWhitespace (c : Char) : Bool :=
  (0x09 ≤ c.toNat && c.toNat ≤ 0x0d) || c.toNat == 0x20 || c.toNat == 0xa0 ||
  c.toNat == 0x1680 || (0x2000 ≤ c.toNat && c.toNat ≤ 0x200a) ||
  c.toNat == 0x2028 || c.toNat == 0x2029 || c.toNat == 0x202f ||
  c.toNat == 0x205f || c.toNat == 0x3000 || c.toNat == 0xfeff

/-- `jsonString.replace(/\s/g, '')` from `hashBody`: removes every `\s`
character anywhere in the serialized text, including inside string
literals. -/
def stripJsWhitespace (s : List Char) : List Char :=
  s.filter (fun c => !jsWhitespace c)

/-- `JSON.stringify` escaping of a single character inside a string
literal: `"` and `\` get a backslash, the five short escapes are used for
backspace, tab, newline, form feed and carriage return, all other control
characters become `\u00xx`, and everything else is emitted raw. -/
def jsEscapeChar (c : Char) : List Char :=
  if c = '"' then ['\\', '"']
  else if c = '\\' then ['\\', '\\']
  else if c = '\x08' then ['\\', 'b']
  else if c = '\t' then ['\\', 't']
  else if c = '\n' then ['\\', 'n']
  else if c = '\x0c' then ['\\', 'f']
  else if c = '\r' then ['\\', 'r']
  else if c.toNat < 0x20 then
    ['\\', 'u', '0', '0', hexDigitChar (c.toNat / 16), hexDigitChar (c.toNat % 16)]
  else [c]

/-- `JSON.stringify` escaping of a whole string body. -/
def jsEscapeString : List Char → List Char
  | [] => []
  | c :: cs => jsEscapeChar c ++ jsEscapeString cs

mutual

/-- Compact `JSON.stringify` (no replacer effects, no indentation), as
invoked by `hashBody` and `generateSignature` on the canonicalized value. -/
def jsonStringify : Json → List Char
  | .null => "null".data
  | .bool true => "true".data
  | .bool false => "false".data
  | .num n => intToDecimal n
  | .str s => '"' :: (jsEscapeString s.data ++ ['"'])
  | .arr items => '[' :: (jsonStringifyItems items ++ [']'])
  | .obj entries => '{' :: (jsonStringifyEntries entries ++ ['}'])

/-- Comma-separated serialization of array elements. -/
def jsonStringifyItems : List Json → List Char
  | [] => []
  | [x] => jsonStringify x
  | x :: y :: xs => jsonStringify x ++ ',' :: jsonStringifyItems (y :: xs)

/-- Comma-separated serialization of `"key":value` members. -/
def jsonStringifyEntries : List (String × Json) → List Char
  | [] => []
  | [(k, v)] => '"' :: (jsEscapeString k.data ++ '"' :: ':' :: jsonStringify v)
  | (k, v) :: e :: xs =>
      '"' :: (jsEscapeString k.data ++ '"' :: ':' :: jsonStringify v) ++
        ',' :: jsonStringifyEntries (e :: xs)

end

end Hmac

/-! ## The validating-side canonicalizer (`HmacValidator::sortArrayKeys`
and `json_encode(..., JSON_UNESCAPED_SLASHES | JSON_UNESCAPED_UNICODE)` in
`app/Helpers/HmacValidator.php`) -/

namespace HmacValidator

/-- A PHP array key.  `json_decode($body, true)` produces `int` keys for
JSON array indices and for object keys that PHP's array-key cast turns
into integers; every other object key stays a `string` key. -/
inductive PhpKey where
  | i (n : Int)
  | s (v : String)
  deriving DecidableEq

/-- The value `json_decode($body, true)` yields: JSON scalars map to PHP
scalars, and both JSON arrays and JSON objects map to PHP's single
ordered array type. -/
inductive PhpVal where
  | null
  | b (v : Bool)
  | n (v : Int)
  | str (v : String)
  | arr (entries : List (PhpKey × PhpVal))

/-- The digit shape of a canonical decimal natural: nonempty, digits
only, and no leading zero unless the number is `0` itself (`"0"` yes,
`"00"`/`"07"` no). -/
def canonNatShape : List Char → Bool
  | [] => false
  | c :: cs => c.isDigit && (c != '0' || cs.isEmpty) && cs.all (fun d => d.isDigit)

/-- PHP's array-key cast of a string key: strings holding a canonical
decimal integer within the 64-bit `int` range become `int` keys
(`"8"` → `8`, `"-3"` → `-3`); everything else — `"08"`, `"+5"`, `"-0"`,
`"1.5"`, out-of-range integers, non-numeric text — stays a `string`
key. -/
def phpKeyOf (k : String) : PhpKey :=
  match k.data with
  | [] => .s k
  | c :: cs =>
      if c = '-' then
        if canonNatShape cs && cs != ['0'] && decide ((decDigitsVal 0 cs : Int) ≤ 2 ^ 63) then
          .i (-(decDigitsVal 0 cs : Int))
        else .s k
      else
        if canonNatShape (c :: cs) &&
            decide ((decDigitsVal 0 (c :: cs) : Int) ≤ 2 ^ 63 - 1) then
          .i (decDigitsVal 0 (c :: cs))
        else .s k

mutual

/-- `json_decode($body, true)` on a parsed JSON document: array elements
are keyed `0, 1, …, n-1` and object members are keyed by the array-key
cast `phpKeyOf`, in source order. -/
def jsonToPhp : Json → PhpVal
  | .null => .null
  | .bool v => .b v
  | .num v => .n v
  | .str v => .str v
  | .arr items => .arr (jsonToPhpItems 0 items)
  | .obj entries => .arr (jsonToPhpEntries entries)

/-- Array elements under ascending integer keys starting at `idx`. -/
def jsonToPhpItems : Int → List Json → List (PhpKey × PhpVal)
  | _, [] => []
  | idx, x :: xs => (.i idx, jsonToPhp x) :: jsonToPhpItems (idx + 1) xs

/-- Object members under cast keys, in source order. -/
def jsonToPhpEntries : List (String × Json) → List (PhpKey × PhpVal)
  | [] => []
  | (k, v) :: xs => (phpKeyOf k, jsonToPhp v) :: jsonToPhpEntries xs

end

/-- The whitespace PHP accepts around a numeric string: space, `\t`,
`\n`, `\r`, `\v`, `\f`. -/
def phpSpace (c : Char) : Bool :=
  c = ' ' || c = '\t' || c = '\n' || c = '\r' || c = '\x0b' || c = '\x0c'

/-- The optional sign of a PHP numeric string. -/
def phpSign (cs : List Char) : Int × List Char :=
  match cs with
  | [] => (1, cs)
  | c :: r => if c = '-' then (-1, r) else if c = '+' then (1, r) else (1, c :: r)

/-- The integer/fraction part of a PHP numeric string — `digits`,
`digits.digits?` or `.digits` — as an exact decimal mantissa and
power-of-ten exponent, plus the unread remainder. -/
def phpNumBody (cs : List Char) : Option (Int × Int × List Char) :=
  match cs.drop (cs.takeWhile (fun c => c.isDigit)).length with
  | '.' :: rest2 =>
      if (cs.takeWhile (fun c => c.isDigit)).isEmpty &&
          (rest2.takeWhile (fun c => c.isDigit)).isEmpty then none
      else
        some ((decDigitsVal (decDigitsVal 0 (cs.takeWhile (fun c => c.isDigit)))
            (rest2.takeWhile (fun c => c.isDigit)) : Int),
          -(((rest2.takeWhile (fun c => c.isDigit)).length : Int)),
          rest2.drop (rest2.takeWhile (fun c => c.isDigit)).length)
  | rest =>
      if (cs.takeWhile (fun c => c.isDigit)).isEmpty then none
      else some ((decDigitsVal 0 (cs.takeWhile (fun c => c.isDigit)) : Int), 0, rest)

/-- The optional exponent of a PHP numeric string, applied to the value
read so far. -/
def phpNumExp (m e : Int) : List Char → Option (Int × Int × List Char)
  | [] => some (m, e, [])
  | c :: rest =>
      if c = 'e' || c = 'E' then
        if ((phpSign rest).2.takeWhile (fun c => c.isDigit)).isEmpty then none
        else
          some (m,
            e + (phpSign rest).1 *
              (decDigitsVal 0 ((phpSign rest).2.takeWhile (fun c => c.isDigit)) : Int),
            (phpSign rest).2.drop ((phpSign rest).2.takeWhile (fun c => c.isDigit)).length)
      else some (m, e, c :: rest)

/-- PHP's numeric-string test (`is_numeric`, as the comparison operators
also apply it, PHP 8 semantics) together with the exact value the string
denotes: optional whitespace on both sides, an optional sign, an
integer/fraction part and an optional exponent.  Returns the value as a
pair `(m, e)` standing for `m * 10 ^ e`, or `none` when the string is
not numeric. -/
def phpNumeric (cs : List Char) : Option (Int × Int) :=
  match phpNumBody (phpSign (cs.dropWhile phpSpace)).2 with
  | none => none
  | some (m, e, rest) =>
      match phpNumExp ((phpSign (cs.dropWhile phpSpace)).1 * m) e rest with
      | none => none
      | some (m2, e2, rest2) =>
          if rest2.dropWhile phpSpace = [] then some (m2, e2) else none

/-- Three-way comparison of integers. -/
def intCmp (a b : Int) : Ordering :=
  if a < b then .lt else if b < a then .gt else .eq

/-- Exact comparison of two decimal values `m * 10 ^ e`.  PHP compares
non-integral numeric strings as IEEE doubles; the exact comparison
agrees with it except when two distinct values fall within one double
rounding step, and the agreement theorems below exclude numeric keys
altogether. -/
def decCmp (a b : Int × Int) : Ordering :=
  if b.2 ≤ a.2 then intCmp (a.1 * 10 ^ (a.2 - b.2).toNat) b.1
  else intCmp a.1 (b.1 * 10 ^ (b.2 - a.2).toNat)

/-- `strcmp` byte order on UTF-8 strings, which coincides with
code-point lexicographic order because UTF-8 preserves it. -/
def strCmpChars (a b : List Char) : Ordering :=
  if keyLt a b then .lt else if keyLt b a then .gt else .eq

/-- The PHP 8 standard comparison that `ksort($array)` (`SORT_REGULAR`)
applies to array keys: two `int` keys compare numerically; two `string`
keys compare numerically when both are numeric strings and bytewise
otherwise; an `int` key against a numeric string key compares
numerically, and against a non-numeric string key by the decimal
rendering of the `int`. -/
def phpKeyCmp : PhpKey → PhpKey → Ordering
  | .i a, .i b => intCmp a b
  | .i a, .s b =>
      match phpNumeric b.data with
      | some v => decCmp (a, 0) v
      | none => strCmpChars (intToDecimal a) b.data
  | .s a, .i b =>
      match phpNumeric a.data with
      | some u => decCmp u (b, 0)
      | none => strCmpChars a.data (intToDecimal b)
  | .s a, .s b =>
      match phpNumeric a.data, phpNumeric b.data with
      | some u, some v => decCmp u v
      | _, _ => strCmpChars a.data b.data

/-- `ksort` ordering on decoded entries: the key of `p` may precede the
key of `q`.  PHP's sorts are stable (8.0+), as is insertion by this
non-strict relation. -/
def phpKeyLe (p q : PhpKey × PhpVal) : Prop := phpKeyCmp p.1 q.1 ≠ .gt

instance : DecidableRel phpKeyLe := fun p q => by
  unfold phpKeyLe
  exact inferInstance

mutual

/-- `HmacValidator::sortArrayKeys`: `ksort($array)` — sort by the key
comparison above — and the `foreach` recursion into every value that is
itself an array.  The source runs `ksort` first and then the `foreach`;
the two steps commute (`ksort` permutes entries by key only, the
`foreach` rewrites each value in place), and they are composed here
values-first so that the recursion is structural. -/
def sortArrayKeys : PhpVal → PhpVal
  | .null => .null
  | .b v => .b v
  | .n v => .n v
  | .str v => .str v
  | .arr entries => .arr (List.insertionSort phpKeyLe (sortArrayKeysEntries entries))

/-- The `foreach` of `sortArrayKeys`: recurse into each value, keys and
order untouched. -/
def sortArrayKeysEntries : List (PhpKey × PhpVal) → List (PhpKey × PhpVal)
  | [] => []
  | (k, v) :: xs => (k, sortArrayKeys v) :: sortArrayKeysEntries xs

end

/-- PHP `json_encode` escaping of one character under
`JSON_UNESCAPED_SLASHES | JSON_UNESCAPED_UNICODE`: identical to the
JavaScript rule — quote and backslash escaped, short escapes for the five
named control characters, `\u00xx` for remaining control characters,
everything else (slashes and non-ASCII included) raw. -/
def phpEscapeChar (c : Char) : List Char :=
  if c = '"' then ['\\', '"']
  else if c = '\\' then ['\\', '\\']
  else if c = '\x08' then ['\\', 'b']
  else if c = '\t' then ['\\', 't']
  else if c = '\n' then ['\\', 'n']
  else if c = '\x0c' then ['\\', 'f']
  else if c = '\r' then ['\\', 'r']
  else if c.toNat < 0x20 then
    ['\\', 'u', '0', '0', hexDigitChar (c.toNat / 16), hexDigitChar (c.toNat % 16)]
  else [c]

/-- PHP `json_encode` escaping of a whole string body. -/
def phpEscapeString : List Char → List Char
  | [] => []
  | c :: cs => phpEscapeChar c ++ phpEscapeString cs

/-- `json_encode` emits a PHP array as a JSON array exactly when its
keys are `0, 1, …, n-1` in that order (the empty array included);
checked here from the running index `idx`. -/
def phpIsListFrom : Int → List (PhpKey × PhpVal) → Bool
  | _, [] => true
  | idx, (.i k, _) :: xs => decide (k = idx) && phpIsListFrom (idx + 1) xs
  | _, (.s _, _) :: _ => false

/-- The string under which `json_encode` renders an array key. -/
def phpKeyString : PhpKey → List Char
  | .i n => intToDecimal n
  | .s v => v.data

mutual

/-- PHP `json_encode($data, JSON_UNESCAPED_SLASHES | JSON_UNESCAPED_UNICODE)`
on a decoded value: an array whose keys are `0..n-1` in order (the empty
array included) is emitted as a JSON array, every other array as a JSON
object with stringified keys. -/
def phpJsonEncode : PhpVal → List Char
  | .null => "null".data
  | .b true => "true".data
  | .b false => "false".data
  | .n v => intToDecimal v
  | .str v => '"' :: (phpEscapeString v.data ++ ['"'])
  | .arr entries =>
      if phpIsListFrom 0 entries then '[' :: (phpJsonEncodeItems entries ++ [']'])
      else '{' :: (phpJsonEncodeEntries entries ++ ['}'])

/-- Comma-separated encoding of list-array values. -/
def phpJsonEncodeItems : List (PhpKey × PhpVal) → List Char
  | [] => []
  | [(_, v)] => phpJsonEncode v
  | (_, v) :: e :: xs => phpJsonEncode v ++ ',' :: phpJsonEncodeItems (e :: xs)

/-- Comma-separated encoding of `"key":value` members. -/
def phpJsonEncodeEntries : List (PhpKey × PhpVal) → List Char
  | [] => []
  | [(k, v)] => '"' :: (phpEscapeString (phpKeyString k) ++ '"' :: ':' :: phpJsonEncode v)
  | (k, v) :: e :: xs =>
      '"' :: (phpEscapeString (phpKeyString k) ++ '"' :: ':' :: phpJsonEncode v) ++
        ',' :: phpJsonEncodeEntries (e :: xs)

end

end HmacValidator

/-! ## JSON text parsing

Models the platform JSON readers (`json_decode($body, true)` on the
Laravel side, `JSON.parse` on the Next.js side) on compact documents: the
whole input must be consumed, and a value round-trips through the
serializers above.  (Surrounding whitespace tolerance, float literals and
strict rejection of trailing commas are outside the scope of this model;
none of them can be produced by the canonical encoders.) -/

/-- Hexadecimal digit value of a character, if any. -/
def parseHexDigit (c : Char) : Option Nat :=
  if 48 ≤ c.toNat ∧ c.toNat ≤ 57 then some (c.toNat - 48)
  else if 97 ≤ c.toNat ∧ c.toNat ≤ 102 then some (c.toNat - 87)
  else if 65 ≤ c.toNat ∧ c.toNat ≤ 70 then some (c.toNat - 55)
  else none

/-- Meaning of a short escape `\x` inside a JSON string literal. -/
def unescapeShort (c : Char) : Option Char :=
  if c = '"' then some '"'
  else if c = '\\' then some '\\'
  else if c = '/' then some '/'
  else if c = 'b' then some '\x08'
  else if c = 'f' then some '\x0c'
  else if c = 'n' then some '\n'
  else if c = 'r' then some '\r'
  else if c = 't' then some '\t'
  else none

/-- Reads the body of a JSON string literal (the opening quote already
consumed), returning the decoded characters and the input after the
closing quote. -/
def parseStringBody : List Char → Option (List Char × List Char)
  | [] => none
  | c :: rest =>
      if c = '"' then some ([], rest)
      else if c = '\\' then
        match rest with
        | [] => none
        | e :: rest' =>
            if e = 'u' then
              match rest' with
              | h1 :: h2 :: h3 :: h4 :: rest'' =>
                  match parseHexDigit h1, parseHexDigit h2, parseHexDigit h3,
                    parseHexDigit h4 with
                  | some a, some b, some c', some d =>
                      match parseStringBody rest'' with
                      | some (s, r) =>
                          some (Char.ofNat (((a * 16 + b) * 16 + c') * 16 + d) :: s, r)
                      | none => none
                  | _, _, _, _ => none
              | _ => none
            else
              match unescapeShort e with
              | some ec =>
                  match parseStringBody rest' with
                  | some (s, r) => some (ec :: s, r)
                  | none => none
              | none => none
      else
        match parseStringBody rest with
        | some (s, r) => some (c :: s, r)
        | none => none

/-- Greedy run of decimal digits; fails when there is none. -/
def parseDigits (cs : List Char) : Option (Nat × List Char) :=
  let ds := cs.takeWhile (fun c => c.isDigit)
  if ds = [] then none else some (decDigitsVal 0 ds, cs.dropWhile (fun c => c.isDigit))

/-- An optionally negated integer literal. -/
def parseIntToken (cs : List Char) : Option (Int × List Char) :=
  match cs with
  | [] => none
  | c :: rest =>
      if c = '-' then
        match parseDigits rest with
        | some (n, r) => some (-(n : Int), r)
        | none => none
      else
        match parseDigits cs with
        | some (n, r) => some ((n : Int), r)
        | none => none

/-- Consumes an expected literal character sequence. -/
def expectChars : List Char → List Char → Option (List Char)
  | [], cs => some cs
  | _ :: _, [] => none
  | k :: ks, c :: cs => if c = k then expectChars ks cs else none

mutual

/-- Reads one JSON value from the front of the input. -/
def parseValue : Nat → List Char → Option (Json × List Char)
  | 0, _ => none
  | fuel + 1, cs =>
      match cs with
      | [] => none
      | c :: rest =>
          if c = 'n' then
            match expectChars ['u', 'l', 'l'] rest with
            | some r => some (.null, r)
            | none => none
          else if c = 't' then
            match expectChars ['r', 'u', 'e'] rest with
            | some r => some (.bool true, r)
            | none => none
          else if c = 'f' then
            match expectChars ['a', 'l', 's', 'e'] rest with
            | some r => some (.bool false, r)
            | none => none
          else if c = '"' then
            match parseStringBody rest with
            | some (s, r) => some (.str (String.mk s), r)
            | none => none
          else if c = '[' then
            match parseItems fuel rest with
            | some (items, r) => some (.arr items, r)
            | none => none
          else if c = '{' then
            match parseEntries fuel rest with
            | some (entries, r) => some (.obj entries, r)
            | none => none
          else
            match parseIntToken (c :: rest) with
            | some (n, r) => some (.num n, r)
            | none => none

/-- Accepts the closing bracket of an empty (or just-terminated) array. -/
def expectRBracket : List Char → Option (List Json × List Char)
  | c :: rest => if c = ']' then some ([], rest) else none
  | [] => none

/-- Reads array elements up to and including the closing bracket. -/
def parseItems : Nat → List Char → Option (List Json × List Char)
  | 0, _ => none
  | fuel + 1, cs =>
      match parseValue fuel cs with
      | none => expectRBracket cs
      | some (v, rest) =>
          match rest with
          | c :: rest' =>
              if c = ',' then
                match parseItems fuel rest' with
                | some (vs, r) => some (v :: vs, r)
                | none => none
              else if c = ']' then some ([v], rest')
              else none
          | [] => none

/-- Reads object members up to and including the closing brace. -/
def parseEntries : Nat → List Char → Option (List (String × Json) × List Char)
  | 0, _ => none
  | fuel + 1, cs =>
      match cs with
      | [] => none
      | c :: rest =>
          if c = '}' then some ([], rest)
          else if c = '"' then
            match parseStringBody rest with
            | none => none
            | some (k, rest₁) =>
                match rest₁ with
                | [] => none
                | c₁ :: rest₂ =>
                    if c₁ = ':' then
                      match parseValue fuel rest₂ with
                      | none => none
                      | some (v, rest₃) =>
                          match rest₃ with
                          | [] => none
                          | c₂ :: rest₄ =>
                              if c₂ = ',' then
                                match parseEntries fuel rest₄ with
                                | some (es, r) => some ((String.mk k, v) :: es, r)
                                | none => none
                              else if c₂ = '}' then some ([(String.mk k, v)], rest₄)
                              else none
                    else none
          else none

end

/-- Full-document JSON parse: one value, and the entire input must be
consumed (as `json_decode` requires). -/
def jsonParse (cs : List Char) : Option Json :=
  match parseValue (cs.length + 1) cs with
  | some (v, []) => some v
  | _ => none

/-! ## Signing side: `hashBody` and `generateSignature` from
`apps/web/src/lib/security/hmac.ts`

SHA-256 and HMAC-SHA256 are platform primitives (`node:crypto`), not code
of this repository; they are passed in as function parameters
`sha256hex : List Char → List Char` and
`hmacSha256hex : (secret payload : List Char) → List Char`, shared with
the validating side exactly as the two deployments share the real
algorithms. -/

namespace Hmac

/-- The result of `generateSignature`: the three HMAC headers plus the
normalized body to transmit. -/
structure SignResult where
  xBffId : String
  xBffTimestamp : List Char
  xBffSignature : List Char
  normalizedBody : Option (List Char)
  deriving DecidableEq

/-- The exact byte string hashed by `hashBody` for a (truthy) body: the
canonicalized value serialized compactly and then stripped of every `\s`
character (`JSON.stringify(...).replace(/\s/g, '')`). -/
def hashBodyBytes (body : Json) : List Char :=
  stripJsWhitespace (jsonStringify (sortObjectKeys body))

/-- `hashBody` from `hmac.ts`: the empty string for a falsy body
(`if (!body) return ''`), otherwise the SHA-256 hex digest of
`hashBodyBytes`. -/
def hashBody (sha256hex : List Char → List Char) (body : Option Json) : List Char :=
  match body with
  | none => []
  | some v => if jsTruthy v then sha256hex (hashBodyBytes v) else []

/-- The normalized body `generateSignature` returns for transmission:
defined whenever `body !== null && body !== undefined`, as
`JSON.stringify(sortObjectKeys(body))` (no whitespace stripping). -/
def normalizedBodyOf (body : Option Json) : Option (List Char) :=
  match body with
  | none => none
  | some .null => none
  | some v => some (jsonStringify (sortObjectKeys v))

/-- `generateSignature` from `hmac.ts`: fails when the shared secret is
unset/empty (`ensureHmacConfigured`), otherwise builds the payload
`TIMESTAMP:METHOD:PATH:BODY_HASH`, signs it with HMAC-SHA256, and returns
the three headers plus the normalized body. -/
def generateSignature (sha256hex : List Char → List Char)
    (hmacSha256hex : List Char → List Char → List Char)
    (secret : List Char) (bffId : String) (timestamp : Nat)
    (method path : String) (body : Option Json) : Except String SignResult :=
  if secret = [] then
    .error "BFF_HMAC_SECRET environment variable is not set"
  else
    let ts := natToDecimal timestamp
    let bodyHash := hashBody sha256hex body
    let payload := ts ++ ':' :: method.data ++ ':' :: path.data ++ ':' :: bodyHash
    let signature := hmacSha256hex secret payload
    .ok { xBffId := bffId, xBffTimestamp := ts, xBffSignature := signature,
          normalizedBody := normalizedBodyOf body }

end Hmac

/-! ## Validating side: the `HmacValidator` pipeline from
`app/Helpers/HmacValidator.php` -/

namespace HmacValidator

/-- The rejection reasons of the validator, one per early-return branch of
`HmacValidator` (`Missing required headers`, `Invalid BFF ID`,
`Timestamp validation failed`, `BFF authentication misconfigured`,
`Invalid signature`). -/
inductive VError where
  | missingHeaders
  | invalidBffId
  | timestampExpired
  | misconfigured
  | invalidSignature
  deriving DecidableEq

/-- The parts of the Laravel `Request` the validator consults.  Absent
headers are `none` (`$request->hasHeader` false / `header()` null). -/
structure PhpRequest where
  idHeader : Option String
  tsHeader : Option (List Char)
  sigHeader : Option (List Char)
  method : String
  path : String
  content : List Char
  deriving DecidableEq

/-- PHP `empty()` on a string: true exactly for `""` and `"0"`. -/
def phpEmpty (s : List Char) : Bool := decide (s = []) || decide (s = ['0'])

/-- `validateTimestamp`: `(int)`-cast the header and require
`abs($now - $timestamp) <= 300` (`TIMESTAMP_TOLERANCE`). -/
def validateTimestamp (now : Int) (req : PhpRequest) : Except VError Unit :=
  let timestamp := phpIntCast (req.tsHeader.getD [])
  let diff := (now - timestamp).natAbs
  if diff > 300 then .error .timestampExpired else .ok ()

/-- PHP `is_array` on a decoded value (both JSON arrays and objects
decode to PHP arrays under `json_decode(..., true)`). -/
def phpIsArray : PhpVal → Bool
  | .arr _ => true
  | _ => false

/-- `HmacValidator::hashBody`: the empty string for an `empty()` raw body;
otherwise `json_decode` the body and, when it decoded to an array,
re-encode it with sorted keys and hash that, else hash the raw body
(scalar documents and decode failures alike). -/
def hashBody (sha256hex : List Char → List Char) (content : List Char) : List Char :=
  if phpEmpty content then []
  else
    let body' :=
      match jsonParse content with
      | some v =>
          let data := jsonToPhp v
          if phpIsArray data then phpJsonEncode (sortArrayKeys data) else content
      | none => content
    sha256hex body'

end HmacValidator

/-! ## The proxy route handler
(`apps/web/src/app/api/v1/[...path]/route.ts`)

`proxyRequest` is split at the `fetch` call: `proxyPrepare` models
everything decided locally before any upstream request (path validation,
body selection, signing, bearer-token attachment), returning either a
local `ErrorResponse` — in which case no upstream call happens — or the
`ForwardedRequest` that is sent; `proxyRelay` models the response phase
(header copying, `Set-Cookie` re-appending, `auth_token` rotation).
The final host double-check is invisible here: validated segments are
drawn from `[A-Za-z0-9_-]+`, so `new URL` cannot escape the configured
authority. -/

/-- `BffErrorCode` from `lib/security/types.ts`. -/
inductive BffErrorCode where
  | INVALID_SIGNATURE
  | MISSING_HEADERS
  | TIMESTAMP_EXPIRED
  | INVALID_BFF_ID
  | UPSTREAM_ERROR
  | NETWORK_ERROR
  | TIMEOUT
  deriving DecidableEq

/-- `BffException` from `lib/security/types.ts`: a code plus a message. -/
structure BffException where
  code : BffErrorCode
  message : String
  deriving DecidableEq

namespace Route

/-- Does `needle` occur contiguously inside the list
(`String.prototype.includes`)? -/
def hasInfix (needle : List Char) : List Char → Bool
  | [] => needle.isEmpty
  | c :: cs => List.isPrefixOf needle (c :: cs) || hasInfix needle cs

/-- The `SAFE_PATH_SEGMENT` regex `^[a-zA-Z0-9_-]+$` applied to one
segment. -/
def safePathSegment (s : String) : Bool :=
  !s.data.isEmpty && s.data.all (fun c => c.isAlphanum || c = '_' || c = '-')

/-- The check `validatePathSegments` performs on a single segment, with
the first matching rejection winning, and the exact source messages. -/
def checkSegment (segment : String) : Except BffException Unit :=
  if segment = "" then
    .error ⟨.INVALID_SIGNATURE, "Invalid path: empty segment"⟩
  else if segment = ".." || segment = "." then
    .error ⟨.INVALID_SIGNATURE, "Invalid path: traversal not allowed"⟩
  else if hasInfix "://".data segment.data || List.isPrefixOf "//".data segment.data then
    .error ⟨.INVALID_SIGNATURE, "Invalid path: absolute URLs not allowed"⟩
  else if !safePathSegment segment then
    .error ⟨.INVALID_SIGNATURE, "Invalid path: forbidden characters"⟩
  else .ok ()

/-- `validatePathSegments` from `route.ts`: checks every segment in
order; the first offending segment throws a `BffException`. -/
def validatePathSegments : List String → Except BffException Unit
  | [] => .ok ()
  | s :: rest =>
      match checkSegment s with
      | .error e => .error e
      | .ok () => validatePathSegments rest

/-- `pathSegments.join('/')`. -/
def joinSlash : List String → String
  | [] => ""
  | [s] => s
  | s :: t :: rest => s ++ "/" ++ joinSlash (t :: rest)

/-- `laravelPath.startsWith(route)` via character lists. -/
def startsWithStr (s pre : String) : Bool := List.isPrefixOf pre.data s.data

/-- The fixed allow-list of public routes from `proxyRequest`. -/
def publicRoutes : List String :=
  ["api/v1/auth/login", "api/v1/auth/register", "api/v1/auth/providers"]

/-- The inbound information `proxyRequest` consults before calling the
upstream. -/
structure ProxyInput where
  pathSegments : List String
  method : String
  contentTypeJson : Bool
  jsonBody : Option Json
  authToken : Option String
  timestamp : Nat
  deriving DecidableEq

/-- A locally produced JSON error response
(`NextResponse.json({...}, {status})`). -/
structure ErrorResponse where
  status : Nat
  error : String
  message : Option String
  code : Option BffErrorCode
  deriving DecidableEq

/-- The upstream request as assembled by `proxyRequest` just before
`fetch`. -/
structure ForwardedRequest where
  laravelPath : String
  headers : List (String × String)
  body : Option (List Char)
  deriving DecidableEq

/-- `/api/v1/${pathSegments.join('/')}` with the leading slash stripped
(`buildLaravelPath` is the identity, and `.replace(/^\//, '')` removes
the initial slash). -/
def laravelPathOf (input : ProxyInput) : String :=
  "api/v1/" ++ joinSlash input.pathSegments

/-- The body `proxyRequest` signs: read only for non-GET/HEAD methods and
only when the content type is JSON; unparseable or absent bodies are
`none`. -/
def signedBodyOf (input : ProxyInput) : Option Json :=
  if input.method = "GET" || input.method = "HEAD" then none
  else if input.contentTypeJson then input.jsonBody else none

/-- The headers prepared for Laravel before the bearer token decision. -/
def baseHeaders (res : Hmac.SignResult) : List (String × String) :=
  [("Content-Type", "application/json"),
   ("Accept", "application/json"),
   ("X-BFF-Id", res.xBffId),
   ("X-BFF-Timestamp", String.mk res.xBffTimestamp),
   ("X-BFF-Signature", String.mk res.xBffSignature)]

/-- `publicRoutes.some((route) => laravelPath.startsWith(route))`. -/
def isPublicRoute (laravelPath : String) : Bool :=
  publicRoutes.any (fun r => startsWithStr laravelPath r)

/-- JavaScript truthiness of
`cookieStore.get('auth_token')?.value` — a `string | undefined` — as
tested by `if (authToken)`: truthy exactly for a present, non-empty
string. -/
def tokenTruthy : Option String → Bool
  | none => false
  | some t => !decide (t = "")

/-- The local phase of `proxyRequest`: everything up to (but excluding)
the `fetch` call.  An `ErrorResponse` outcome means the function returned
without any upstream call: path rejections and signing failures surface
through the shared `catch` (`BffException` → status 500 with the
exception's message and code; other errors → the generic 500 body).  The
bearer decision is the code's `if (authToken) ... else if
(!isPublicRoute) return 401`: a **truthy** (present and non-empty)
cookie value is attached as `Authorization`, while an absent *or empty*
value falls to the `else if` — 401 on a non-public route, and a forward
without `Authorization` on a public one. -/
def proxyPrepare (sha256hex : List Char → List Char)
    (hmacSha256hex : List Char → List Char → List Char)
    (secret : List Char) (bffId : String) (input : ProxyInput) :
    Except ErrorResponse ForwardedRequest :=
  match validatePathSegments input.pathSegments with
  | .error e => .error { status := 500, error := e.message, message := none, code := some e.code }
  | .ok () =>
      match Hmac.generateSignature sha256hex hmacSha256hex secret bffId input.timestamp
          input.method (laravelPathOf input) (signedBodyOf input) with
      | .error _ =>
          .error { status := 500, error := "Internal server error",
                   message := some "Failed to proxy request", code := none }
      | .ok hmacResult =>
          if tokenTruthy input.authToken then
            .ok { laravelPath := laravelPathOf input,
                  headers := baseHeaders hmacResult ++
                    [("Authorization", "Bearer " ++ input.authToken.getD "")],
                  body := hmacResult.normalizedBody }
          else if !isPublicRoute (laravelPathOf input) then
            .error { status := 401, error := "Unauthorized",
                     message := some "No auth token found", code := none }
          else
            .ok { laravelPath := laravelPathOf input, headers := baseHeaders hmacResult,
                  body := hmacResult.normalizedBody }

end Route

/-! ## Agreement of the two serializers and the two canonicalizers -/

theorem phpEscapeChar_eq_jsEscapeChar (c : Char) :
    HmacValidator.phpEscapeChar c = Hmac.jsEscapeChar c := rfl

theorem phpEscapeString_eq_jsEscapeString :
    ∀ s, HmacValidator.phpEscapeString s = Hmac.jsEscapeString s
  | [] => rfl
  | c :: cs => by
      simp only [HmacValidator.phpEscapeString, Hmac.jsEscapeString,
        phpEscapeChar_eq_jsEscapeChar, phpEscapeString_eq_jsEscapeString cs]

/-! ## Idempotence of the canonicalizer -/

namespace Hmac

theorem sortObjectKeysEntries_eq_map (l : List (String × Json)) :
    sortObjectKeysEntries l = l.map (fun p => (p.1, sortObjectKeys p.2)) := by
  induction l with
  | nil => rfl
  | cons p xs ih =>
      obtain ⟨k, v⟩ := p
      simp [sortObjectKeysEntries, ih]

theorem sortObjectKeysList_eq_map (l : List Json) :
    sortObjectKeysList l = l.map sortObjectKeys := by
  induction l with
  | nil => rfl
  | cons x xs ih => simp [sortObjectKeysList, ih]

theorem sortObjectKeysEntries_insertionSort (l : List (String × Json)) :
    sortObjectKeysEntries (l.insertionSort pairLe) =
      (sortObjectKeysEntries l).insertionSort pairLe := by
  rw [sortObjectKeysEntries_eq_map, sortObjectKeysEntries_eq_map]
  exact List.map_insertionSort pairLe pairLe (fun p => (p.1, sortObjectKeys p.2)) l
    (fun a _ b _ => Iff.rfl)

mutual

theorem sortObjectKeys_idem : ∀ v, sortObjectKeys (sortObjectKeys v) = sortObjectKeys v
  | .null => rfl
  | .bool _ => rfl
  | .num _ => rfl
  | .str _ => rfl
  | .arr items => by
      simp only [sortObjectKeys, sortObjectKeysList_idem items]
  | .obj entries => by
      simp only [sortObjectKeys]
      rw [sortObjectKeysEntries_insertionSort, sortObjectKeysEntries_idem entries,
        List.Sorted.insertionSort_eq (List.sorted_insertionSort pairLe _)]

theorem sortObjectKeysList_idem :
    ∀ l, sortObjectKeysList (sortObjectKeysList l) = sortObjectKeysList l
  | [] => rfl
  | x :: xs => by
      simp only [sortObjectKeysList, sortObjectKeys_idem x, sortObjectKeysList_idem xs]

theorem sortObjectKeysEntries_idem :
    ∀ l, sortObjectKeysEntries (sortObjectKeysEntries l) = sortObjectKeysEntries l
  | [] => rfl
  | (k, v) :: xs => by
      simp only [sortObjectKeysEntries, sortObjectKeys_idem v, sortObjectKeysEntries_idem xs]

end

end Hmac

/-! ## Invariance of the canonicalizer under key-insertion-order
permutation -/

/-- No string occurs twice in the list (distinctness of object keys, a
JavaScript-object invariant). -/
def keysDistinct : List String → Bool
  | [] => true
  | k :: ks => !(ks.contains k) && keysDistinct ks

theorem keysDistinct_iff : ∀ ks : List String, keysDistinct ks = true ↔ ks.Nodup
  | [] => by simp [keysDistinct]
  | k :: ks => by
      simp [keysDistinct, keysDistinct_iff ks, List.nodup_cons, List.elem_iff]

mutual

/-- All nested objects have pairwise-distinct keys. -/
def wfJson : Json → Bool
  | .null => true
  | .bool _ => true
  | .num _ => true
  | .str _ => true
  | .arr l => wfList l
  | .obj l => keysDistinct (l.map Prod.fst) && wfEntries l

/-- `wfJson` over array elements. -/
def wfList : List Json → Bool
  | [] => true
  | x :: xs => wfJson x && wfList xs

/-- `wfJson` over object entry values. -/
def wfEntries : List (String × Json) → Bool
  | [] => true
  | (_, v) :: xs => wfJson v && wfEntries xs

end

mutual

/-- `KeyPerm v w`: `w` is `v` with the entry lists of nested objects
re-ordered arbitrarily, array order and scalar values untouched. -/
inductive KeyPerm : Json → Json → Prop where
  | null : KeyPerm .null .null
  | bool (b : Bool) : KeyPerm (.bool b) (.bool b)
  | num (n : Int) : KeyPerm (.num n) (.num n)
  | str (s : String) : KeyPerm (.str s) (.str s)
  | arr {xs ys : List Json} : KeyPermList xs ys → KeyPerm (.arr xs) (.arr ys)
  | obj {xs zs ys : List (String × Json)} : KeyPermEntries xs zs → zs.Perm ys →
      KeyPerm (.obj xs) (.obj ys)

/-- Pointwise `KeyPerm` on array elements. -/
inductive KeyPermList : List Json → List Json → Prop where
  | nil : KeyPermList [] []
  | cons {x y : Json} {xs ys : List Json} : KeyPerm x y → KeyPermList xs ys →
      KeyPermList (x :: xs) (y :: ys)

/-- Same keys in the same order, values related by `KeyPerm`. -/
inductive KeyPermEntries : List (String × Json) → List (String × Json) → Prop where
  | nil : KeyPermEntries [] []
  | cons {k : String} {v w : Json} {xs ys : List (String × Json)} :
      KeyPerm v w → KeyPermEntries xs ys →
      KeyPermEntries ((k, v) :: xs) ((k, w) :: ys)

end

theorem keyPermEntries_keys :
    ∀ {xs ys : List (String × Json)}, KeyPermEntries xs ys →
      xs.map Prod.fst = ys.map Prod.fst
  | _, _, .nil => rfl
  | _, _, .cons _ h => by simpa using keyPermEntries_keys h

theorem pairLt_irrefl (p : String × Json) : ¬ pairLt p p := by
  unfold pairLt
  intro h
  have := keyLt_asymm _ _ h
  rw [this] at h
  exact Bool.noConfusion h

theorem pairLt_asymm {p q : String × Json} (h : pairLt p q) : ¬ pairLt q p := by
  unfold pairLt at *
  intro h'
  have := keyLt_asymm _ _ h
  rw [this] at h'
  exact Bool.noConfusion h'

/-- Two strictly key-sorted entry lists that are permutations of each
other are equal. -/
theorem pairwiseLt_perm_eq : ∀ l₁ l₂ : List (String × Json), l₁.Perm l₂ →
    l₁.Pairwise pairLt → l₂.Pairwise pairLt → l₁ = l₂ := by
  intro l₁
  induction l₁ with
  | nil =>
      intro l₂ hp _ _
      exact (List.Perm.nil_eq hp).symm ▸ rfl
  | cons a t₁ ih =>
      intro l₂ hp h₁ h₂
      have ha : a ∈ l₂ := hp.subset (List.mem_cons_self a t₁)
      obtain ⟨s, t, rfl⟩ := List.append_of_mem ha
      rcases s with _ | ⟨b, s'⟩
      · simp only [List.nil_append] at hp h₂ ⊢
        have := ih t (hp.cons_inv) (List.Pairwise.of_cons h₁) (List.Pairwise.of_cons h₂)
        rw [this]
      · exfalso
        have h₂' : List.Pairwise pairLt (b :: (s' ++ a :: t)) := by simpa using h₂
        have hba : pairLt b a := (List.pairwise_cons.mp h₂').1 a (by simp)
        have hb₂ : b ∈ a :: t₁ := hp.symm.subset (by simp)
        rcases List.mem_cons.mp hb₂ with rfl | hb
        · exact pairLt_irrefl b hba
        · have hab : pairLt a b := (List.pairwise_cons.mp h₁).1 b hb
          exact pairLt_asymm hab hba

theorem pairLe_and_ne_imp_lt {p q : String × Json} (hle : pairLe p q)
    (hne : p.1 ≠ q.1) : pairLt p q := by
  unfold pairLe at hle
  unfold pairLt
  rcases h : keyLt p.1.data q.1.data with _ | _
  · exfalso
    exact hne (String.ext (keyLt_connex _ _ h hle))
  · rfl

/-- Insertion sort sends key-permuted, key-distinct entry lists to the
same sorted list. -/
theorem insertionSort_perm_congr (l₁ l₂ : List (String × Json)) (h : l₁.Perm l₂)
    (hk : (l₁.map Prod.fst).Nodup) :
    l₁.insertionSort pairLe = l₂.insertionSort pairLe := by
  have hperm : (l₁.insertionSort pairLe).Perm (l₂.insertionSort pairLe) :=
    (List.perm_insertionSort pairLe l₁).trans (h.trans (List.perm_insertionSort pairLe l₂).symm)
  have hk₂ : (l₂.map Prod.fst).Nodup := (h.map Prod.fst).nodup hk
  have strict : ∀ l : List (String × Json), (l.map Prod.fst).Nodup →
      (l.insertionSort pairLe).Pairwise pairLt := by
    intro l hnd
    have hsorted : (l.insertionSort pairLe).Pairwise pairLe :=
      List.sorted_insertionSort pairLe l
    have hnd' : ((l.insertionSort pairLe).map Prod.fst).Nodup :=
      (((List.perm_insertionSort pairLe l).map Prod.fst).symm).nodup hnd
    have hpw : (l.insertionSort pairLe).Pairwise (fun p q => p.1 ≠ q.1) :=
      List.pairwise_map.mp hnd'
    exact (hsorted.and hpw).imp fun hpq => pairLe_and_ne_imp_lt hpq.1 hpq.2
  exact pairwiseLt_perm_eq _ _ hperm (strict l₁ hk) (strict l₂ hk₂)

mutual

/-- Canonicalization is invariant under permuting the key insertion order
of every nested object (given the JavaScript-object guarantee that keys
are distinct). -/
theorem keyPerm_sortObjectKeys : ∀ v w, KeyPerm v w → wfJson v = true →
    Hmac.sortObjectKeys v = Hmac.sortObjectKeys w
  | _, _, .null, _ => rfl
  | _, _, .bool b, _ => rfl
  | _, _, .num n, _ => rfl
  | _, _, .str s, _ => rfl
  | _, _, .arr h, hwf => by
      simp only [Hmac.sortObjectKeys]
      exact congrArg Json.arr (keyPermList_sortObjectKeys _ _ h (by simpa [wfJson] using hwf))
  | _, _, .obj h hperm, hwf => by
      rename_i xs zs ys
      simp only [Hmac.sortObjectKeys]
      simp only [wfJson, Bool.and_eq_true] at hwf
      have h1 : Hmac.sortObjectKeysEntries xs = Hmac.sortObjectKeysEntries zs :=
        keyPermEntries_sortObjectKeys _ _ h hwf.2
      have h2 : (Hmac.sortObjectKeysEntries zs).Perm (Hmac.sortObjectKeysEntries ys) := by
        rw [Hmac.sortObjectKeysEntries_eq_map, Hmac.sortObjectKeysEntries_eq_map]
        exact hperm.map _
      have hkeys : ((Hmac.sortObjectKeysEntries zs).map Prod.fst).Nodup := by
        rw [Hmac.sortObjectKeysEntries_eq_map, List.map_map]
        have : (Prod.fst ∘ fun p : String × Json => (p.1, Hmac.sortObjectKeys p.2)) =
            Prod.fst := rfl
        rw [this, ← keyPermEntries_keys h]
        exact (keysDistinct_iff _).mp hwf.1
      rw [h1]
      exact congrArg Json.obj (insertionSort_perm_congr _ _ h2 hkeys)

theorem keyPermList_sortObjectKeys : ∀ xs ys, KeyPermList xs ys → wfList xs = true →
    Hmac.sortObjectKeysList xs = Hmac.sortObjectKeysList ys
  | _, _, .nil, _ => rfl
  | _, _, .cons hv hl, hwf => by
      simp only [wfList, Bool.and_eq_true] at hwf
      simp only [Hmac.sortObjectKeysList]
      rw [keyPerm_sortObjectKeys _ _ hv hwf.1, keyPermList_sortObjectKeys _ _ hl hwf.2]

theorem keyPermEntries_sortObjectKeys : ∀ xs ys, KeyPermEntries xs ys → wfEntries xs = true →
    Hmac.sortObjectKeysEntries xs = Hmac.sortObjectKeysEntries ys
  | _, _, .nil, _ => rfl
  | _, _, .cons hv hl, hwf => by
      simp only [wfEntries, Bool.and_eq_true] at hwf
      simp only [Hmac.sortObjectKeysEntries]
      rw [keyPerm_sortObjectKeys _ _ hv hwf.1, keyPermEntries_sortObjectKeys _ _ hl hwf.2]

end

/-! ## Values whose serialization survives the `\s`-stripping, and values
without nested empty objects -/

namespace Hmac

/-- A string character that cannot be damaged by
`.replace(/\s/g, '')` on the serialized form: either not `\s` at all, or
a control character (those are emitted escaped). -/
def wsSafeChar (c : Char) : Bool := !jsWhitespace c || decide (c.toNat < 0x20)

mutual

/-- No string (key or value) anywhere in the value contains a bare `\s`
character. -/
def wsSafe : Json → Bool
  | .null => true
  | .bool _ => true
  | .num _ => true
  | .str s => s.data.all wsSafeChar
  | .arr l => wsSafeList l
  | .obj l => wsSafeEntries l

/-- `wsSafe` over array elements. -/
def wsSafeList : List Json → Bool
  | [] => true
  | x :: xs => wsSafe x && wsSafeList xs

/-- `wsSafe` over object entries (keys included). -/
def wsSafeEntries : List (String × Json) → Bool
  | [] => true
  | (k, v) :: xs => k.data.all wsSafeChar && wsSafe v && wsSafeEntries xs

end

mutual

/-- No nested object is empty (PHP cannot round-trip `{}` through its
array representation). -/
def noEmptyObj : Json → Bool
  | .null => true
  | .bool _ => true
  | .num _ => true
  | .str _ => true
  | .arr l => noEmptyObjList l
  | .obj l => !l.isEmpty && noEmptyObjEntries l

/-- `noEmptyObj` over array elements. -/
def noEmptyObjList : List Json → Bool
  | [] => true
  | x :: xs => noEmptyObj x && noEmptyObjList xs

/-- `noEmptyObj` over object entry values. -/
def noEmptyObjEntries : List (String × Json) → Bool
  | [] => true
  | (_, v) :: xs => noEmptyObj v && noEmptyObjEntries xs

end

theorem wsSafeList_iff_forall : ∀ l : List Json,
    wsSafeList l = true ↔ ∀ x ∈ l, wsSafe x = true
  | [] => by simp [wsSafeList]
  | x :: xs => by
      simp [wsSafeList, Bool.and_eq_true, wsSafeList_iff_forall xs]

theorem wsSafeEntries_iff_forall : ∀ l : List (String × Json),
    wsSafeEntries l = true ↔
      ∀ p ∈ l, p.1.data.all wsSafeChar = true ∧ wsSafe p.2 = true
  | [] => by simp [wsSafeEntries]
  | (k, v) :: xs => by
      simp [wsSafeEntries, Bool.and_eq_true, wsSafeEntries_iff_forall xs, and_assoc]

theorem noEmptyObjList_iff_forall : ∀ l : List Json,
    noEmptyObjList l = true ↔ ∀ x ∈ l, noEmptyObj x = true
  | [] => by simp [noEmptyObjList]
  | x :: xs => by
      simp [noEmptyObjList, Bool.and_eq_true, noEmptyObjList_iff_forall xs]

theorem noEmptyObjEntries_iff_forall : ∀ l : List (String × Json),
    noEmptyObjEntries l = true ↔ ∀ p ∈ l, noEmptyObj p.2 = true
  | [] => by simp [noEmptyObjEntries]
  | (_, v) :: xs => by
      simp [noEmptyObjEntries, Bool.and_eq_true, noEmptyObjEntries_iff_forall xs]

mutual

/-- Canonicalization preserves `wsSafe`. -/
theorem wsSafe_sortObjectKeys : ∀ v, wsSafe v = true → wsSafe (sortObjectKeys v) = true
  | .null, h => h
  | .bool _, h => h
  | .num _, h => h
  | .str _, h => h
  | .arr l, h => by
      simp only [sortObjectKeys, wsSafe]
      exact wsSafe_sortObjectKeysList l h
  | .obj l, h => by
      simp only [sortObjectKeys, wsSafe] at h ⊢
      rw [wsSafeEntries_iff_forall]
      intro p hp
      have hp' : p ∈ sortObjectKeysEntries l := by
        have := (List.perm_insertionSort pairLe (sortObjectKeysEntries l)).subset
        exact this hp
      have := wsSafe_sortObjectKeysEntries l h
      exact (wsSafeEntries_iff_forall _).mp this p hp'

theorem wsSafe_sortObjectKeysList : ∀ l, wsSafeList l = true →
    wsSafeList (sortObjectKeysList l) = true
  | [], h => h
  | x :: xs, h => by
      simp only [wsSafeList, Bool.and_eq_true] at h
      simp only [sortObjectKeysList, wsSafeList, Bool.and_eq_true]
      exact ⟨wsSafe_sortObjectKeys x h.1, wsSafe_sortObjectKeysList xs h.2⟩

theorem wsSafe_sortObjectKeysEntries : ∀ l, wsSafeEntries l = true →
    wsSafeEntries (sortObjectKeysEntries l) = true
  | [], h => h
  | (k, v) :: xs, h => by
      simp only [wsSafeEntries, Bool.and_eq_true] at h
      simp only [sortObjectKeysEntries, wsSafeEntries, Bool.and_eq_true]
      exact ⟨⟨h.1.1, wsSafe_sortObjectKeys v h.1.2⟩, wsSafe_sortObjectKeysEntries xs h.2⟩

end

mutual

/-- Canonicalization preserves `noEmptyObj`. -/
theorem noEmptyObj_sortObjectKeys : ∀ v, noEmptyObj v = true →
    noEmptyObj (sortObjectKeys v) = true
  | .null, h => h
  | .bool _, h => h
  | .num _, h => h
  | .str _, h => h
  | .arr l, h => by
      simp only [sortObjectKeys, noEmptyObj]
      exact noEmptyObj_sortObjectKeysList l h
  | .obj l, h => by
      simp only [noEmptyObj, Bool.and_eq_true] at h
      simp only [sortObjectKeys, noEmptyObj, Bool.and_eq_true]
      constructor
      · have hlen : (List.insertionSort pairLe (sortObjectKeysEntries l)).length = l.length := by
          rw [List.length_insertionSort]
          rw [sortObjectKeysEntries_eq_map, List.length_map]
        cases l with
        | nil => exact absurd h.1 (by decide)
        | cons e es =>
            rcases hc : List.insertionSort pairLe (sortObjectKeysEntries (e :: es)) with _ | _
            · rw [hc] at hlen; simp at hlen
            · rfl
      · rw [noEmptyObjEntries_iff_forall]
        intro p hp
        have hp' : p ∈ sortObjectKeysEntries l :=
          (List.perm_insertionSort pairLe (sortObjectKeysEntries l)).subset hp
        exact (noEmptyObjEntries_iff_forall _).mp (noEmptyObj_sortObjectKeysEntries l h.2) p hp'

theorem noEmptyObj_sortObjectKeysList : ∀ l, noEmptyObjList l = true →
    noEmptyObjList (sortObjectKeysList l) = true
  | [], h => h
  | x :: xs, h => by
      simp only [noEmptyObjList, Bool.and_eq_true] at h
      simp only [sortObjectKeysList, noEmptyObjList, Bool.and_eq_true]
      exact ⟨noEmptyObj_sortObjectKeys x h.1, noEmptyObj_sortObjectKeysList xs h.2⟩

theorem noEmptyObj_sortObjectKeysEntries : ∀ l, noEmptyObjEntries l = true →
    noEmptyObjEntries (sortObjectKeysEntries l) = true
  | [], h => h
  | (k, v) :: xs, h => by
      simp only [noEmptyObjEntries, Bool.and_eq_true] at h
      simp only [sortObjectKeysEntries, noEmptyObjEntries, Bool.and_eq_true]
      exact ⟨noEmptyObj_sortObjectKeys v h.1, noEmptyObj_sortObjectKeysEntries xs h.2⟩

end

end Hmac

mutual

/-- No object key anywhere in the value is a PHP numeric string.  Such
keys change representation on the Laravel side: canonical decimal
integer keys are cast to `int` array keys by `json_decode(..., true)`
(so `{"0":"a"}` becomes the list `[0 => "a"]` and re-encodes as
`["a"]`), and `ksort` compares any numeric string key numerically
rather than bytewise. -/
def noNumericKeys : Json → Bool
  | .null => true
  | .bool _ => true
  | .num _ => true
  | .str _ => true
  | .arr l => noNumericKeysList l
  | .obj l => noNumericKeysEntries l

/-- `noNumericKeys` over array elements. -/
def noNumericKeysList : List Json → Bool
  | [] => true
  | x :: xs => noNumericKeys x && noNumericKeysList xs

/-- `noNumericKeys` over object entries (keys checked, values
recursed). -/
def noNumericKeysEntries : List (String × Json) → Bool
  | [] => true
  | (k, v) :: xs =>
      (HmacValidator.phpNumeric k.data).isNone && noNumericKeys v && noNumericKeysEntries xs

end

theorem noNumericKeysList_iff_forall : ∀ l : List Json,
    noNumericKeysList l = true ↔ ∀ x ∈ l, noNumericKeys x = true
  | [] => by simp [noNumericKeysList]
  | x :: xs => by
      simp [noNumericKeysList, Bool.and_eq_true, noNumericKeysList_iff_forall xs]

theorem noNumericKeysEntries_iff_forall : ∀ l : List (String × Json),
    noNumericKeysEntries l = true ↔
      ∀ p ∈ l, (HmacValidator.phpNumeric p.1.data).isNone = true ∧ noNumericKeys p.2 = true
  | [] => by simp [noNumericKeysEntries]
  | (k, v) :: xs => by
      simp [noNumericKeysEntries, Bool.and_eq_true, noNumericKeysEntries_iff_forall xs,
        and_assoc]

mutual

/-- Canonicalization preserves `noNumericKeys`. -/
theorem noNumericKeys_sortObjectKeys : ∀ v, noNumericKeys v = true →
    noNumericKeys (Hmac.sortObjectKeys v) = true
  | .null, h => h
  | .bool _, h => h
  | .num _, h => h
  | .str _, h => h
  | .arr l, h => by
      simp only [Hmac.sortObjectKeys, noNumericKeys]
      exact noNumericKeys_sortObjectKeysList l h
  | .obj l, h => by
      simp only [Hmac.sortObjectKeys, noNumericKeys] at h ⊢
      rw [noNumericKeysEntries_iff_forall]
      intro p hp
      have hp' : p ∈ Hmac.sortObjectKeysEntries l :=
        (List.perm_insertionSort pairLe (Hmac.sortObjectKeysEntries l)).subset hp
      exact (noNumericKeysEntries_iff_forall _).mp
        (noNumericKeys_sortObjectKeysEntries l h) p hp'

theorem noNumericKeys_sortObjectKeysList : ∀ l, noNumericKeysList l = true →
    noNumericKeysList (Hmac.sortObjectKeysList l) = true
  | [], h => h
  | x :: xs, h => by
      simp only [noNumericKeysList, Bool.and_eq_true] at h
      simp only [Hmac.sortObjectKeysList, noNumericKeysList, Bool.and_eq_true]
      exact ⟨noNumericKeys_sortObjectKeys x h.1, noNumericKeys_sortObjectKeysList xs h.2⟩

theorem noNumericKeys_sortObjectKeysEntries : ∀ l, noNumericKeysEntries l = true →
    noNumericKeysEntries (Hmac.sortObjectKeysEntries l) = true
  | [], h => h
  | (k, v) :: xs, h => by
      simp only [noNumericKeysEntries, Bool.and_eq_true] at h
      simp only [Hmac.sortObjectKeysEntries, noNumericKeysEntries, Bool.and_eq_true]
      exact ⟨⟨h.1.1, noNumericKeys_sortObjectKeys v h.1.2⟩,
        noNumericKeys_sortObjectKeysEntries xs h.2⟩

end

/-! ## The serialized form of a `wsSafe` value contains no `\s`
character, so the signing-side strip is the identity on it -/

theorem isDigit_toNat {c : Char} (h : c.isDigit = true) : 48 ≤ c.toNat ∧ c.toNat ≤ 57 := by
  simp [Char.isDigit, Char.le_def, decide_eq_true_eq] at h
  exact ⟨h.1, h.2⟩

theorem notWs_of_print {c : Char} (h1 : 0x21 ≤ c.toNat) (h2 : c.toNat ≤ 0x7e) :
    Hmac.jsWhitespace c = false := by
  unfold Hmac.jsWhitespace
  simp only [Bool.or_eq_false_iff, Bool.and_eq_false_iff, beq_eq_false_iff_ne, ne_eq,
    decide_eq_false_iff_not, not_le]
  omega

theorem hexDigitChar_print (n : Nat) :
    0x21 ≤ (hexDigitChar n).toNat ∧ (hexDigitChar n).toNat ≤ 0x7e := by
  unfold hexDigitChar
  split <;> decide

theorem natToDecimal_not_ws (n : Nat) : ∀ c ∈ natToDecimal n, Hmac.jsWhitespace c = false := by
  intro c hc
  have hd : c.isDigit = true := natToDecimal_head_digit n c hc
  have := isDigit_toNat hd
  exact notWs_of_print (by omega) (by omega)

theorem intToDecimal_not_ws (n : Int) : ∀ c ∈ intToDecimal n, Hmac.jsWhitespace c = false := by
  intro c hc
  unfold intToDecimal at hc
  split at hc
  · rcases List.mem_cons.mp hc with rfl | hc'
    · decide
    · exact natToDecimal_not_ws _ c hc'
  · exact natToDecimal_not_ws _ c hc

theorem jsEscapeChar_not_ws {c₀ : Char} (h : Hmac.wsSafeChar c₀ = true) :
    ∀ c ∈ Hmac.jsEscapeChar c₀, Hmac.jsWhitespace c = false := by
  unfold Hmac.jsEscapeChar
  split_ifs with h1 h2 h3 h4 h5 h6 h7 h8
  · decide
  · decide
  · decide
  · decide
  · decide
  · decide
  · decide
  · refine List.forall_mem_cons.mpr ⟨by decide, ?_⟩
    refine List.forall_mem_cons.mpr ⟨by decide, ?_⟩
    refine List.forall_mem_cons.mpr ⟨by decide, ?_⟩
    refine List.forall_mem_cons.mpr ⟨by decide, ?_⟩
    refine List.forall_mem_cons.mpr ⟨?_, ?_⟩
    · exact notWs_of_print (hexDigitChar_print _).1 (hexDigitChar_print _).2
    · refine List.forall_mem_cons.mpr ⟨?_, by simp⟩
      exact notWs_of_print (hexDigitChar_print _).1 (hexDigitChar_print _).2
  · refine List.forall_mem_cons.mpr ⟨?_, by simp⟩
    simp only [Hmac.wsSafeChar, Bool.or_eq_true, Bool.not_eq_true',
      decide_eq_true_eq] at h
    rcases h with h | h
    · exact h
    · exact absurd h h8

theorem jsEscapeString_not_ws : ∀ s : List Char, s.all Hmac.wsSafeChar = true →
    ∀ c ∈ Hmac.jsEscapeString s, Hmac.jsWhitespace c = false
  | [], _ => by intro c hc; simp [Hmac.jsEscapeString] at hc
  | c₀ :: cs, h => by
      simp only [List.all_cons, Bool.and_eq_true] at h
      exact fun c hc => List.forall_mem_append.mpr
        ⟨jsEscapeChar_not_ws h.1, jsEscapeString_not_ws cs h.2⟩ c hc

mutual

theorem jsonStringify_not_ws : ∀ v, Hmac.wsSafe v = true →
    ∀ c ∈ Hmac.jsonStringify v, Hmac.jsWhitespace c = false
  | .null, _ => by decide
  | .bool true, _ => by decide
  | .bool false, _ => by decide
  | .num n, _ => fun c hc => intToDecimal_not_ws n c hc
  | .str s, h => by
      simp only [Hmac.jsonStringify]
      refine List.forall_mem_cons.mpr ⟨by decide, List.forall_mem_append.mpr ⟨?_, by decide⟩⟩
      exact jsEscapeString_not_ws s.data (by simpa [Hmac.wsSafe] using h)
  | .arr l, h => by
      simp only [Hmac.jsonStringify]
      refine List.forall_mem_cons.mpr ⟨by decide, List.forall_mem_append.mpr ⟨?_, by decide⟩⟩
      exact jsonStringifyItems_not_ws l (by simpa [Hmac.wsSafe] using h)
  | .obj l, h => by
      simp only [Hmac.jsonStringify]
      refine List.forall_mem_cons.mpr ⟨by decide, List.forall_mem_append.mpr ⟨?_, by decide⟩⟩
      exact jsonStringifyEntries_not_ws l (by simpa [Hmac.wsSafe] using h)

theorem jsonStringifyItems_not_ws : ∀ l, Hmac.wsSafeList l = true →
    ∀ c ∈ Hmac.jsonStringifyItems l, Hmac.jsWhitespace c = false
  | [], _ => by intro c hc; simp [Hmac.jsonStringifyItems] at hc
  | [x], h => by
      simp only [Hmac.jsonStringifyItems]
      exact jsonStringify_not_ws x (by simpa [Hmac.wsSafeList] using h)
  | x :: y :: xs, h => by
      simp only [Hmac.wsSafeList, Bool.and_eq_true] at h
      simp only [Hmac.jsonStringifyItems]
      refine List.forall_mem_append.mpr ⟨?_, List.forall_mem_cons.mpr ⟨by decide, ?_⟩⟩
      · exact jsonStringify_not_ws x h.1
      · exact jsonStringifyItems_not_ws (y :: xs)
          (by simp [Hmac.wsSafeList, h.2.1, h.2.2])

theorem jsonStringifyEntries_not_ws : ∀ l, Hmac.wsSafeEntries l = true →
    ∀ c ∈ Hmac.jsonStringifyEntries l, Hmac.jsWhitespace c = false
  | [], _ => by intro c hc; simp [Hmac.jsonStringifyEntries] at hc
  | [(k, v)], h => by
      simp only [Hmac.wsSafeEntries, Bool.and_eq_true] at h
      simp only [Hmac.jsonStringifyEntries]
      refine List.forall_mem_cons.mpr ⟨by decide, List.forall_mem_append.mpr ⟨?_, ?_⟩⟩
      · exact jsEscapeString_not_ws k.data h.1.1
      · refine List.forall_mem_cons.mpr ⟨by decide, List.forall_mem_cons.mpr ⟨by decide, ?_⟩⟩
        exact jsonStringify_not_ws v h.1.2
  | (k, v) :: e :: xs, h => by
      simp only [Hmac.wsSafeEntries, Bool.and_eq_true] at h
      simp only [Hmac.jsonStringifyEntries, List.cons_append]
      refine List.forall_mem_cons.mpr ⟨by decide, List.forall_mem_append.mpr ⟨?_, ?_⟩⟩
      · refine List.forall_mem_append.mpr ⟨?_, ?_⟩
        · exact jsEscapeString_not_ws k.data h.1.1
        · refine List.forall_mem_cons.mpr ⟨by decide,
            List.forall_mem_cons.mpr ⟨by decide, ?_⟩⟩
          exact jsonStringify_not_ws v h.1.2
      · refine List.forall_mem_cons.mpr ⟨by decide, ?_⟩
        exact jsonStringifyEntries_not_ws (e :: xs) (by simpa [Hmac.wsSafeEntries] using h.2)

end

/-- The signing-side whitespace strip does not alter the canonical
serialization of a `wsSafe` value. -/
theorem stripJsWhitespace_stringify (v : Json) (h : Hmac.wsSafe v = true) :
    Hmac.stripJsWhitespace (Hmac.jsonStringify v) = Hmac.jsonStringify v :=
  List.filter_eq_self.mpr fun c hc => by
    rw [jsonStringify_not_ws v h c hc]
    rfl

/-! ## The parser inverts the serializer -/

theorem stringMk_data : ∀ s : String, String.mk s.data = s
  | ⟨_⟩ => rfl

theorem parseHexDigit_hexDigitChar : ∀ n, n < 16 → parseHexDigit (hexDigitChar n) = some n := by
  decide

theorem expectChars_append : ∀ kw rest : List Char, expectChars kw (kw ++ rest) = some rest
  | [], rest => rfl
  | k :: ks, rest => by
      simp only [List.cons_append, expectChars, if_pos rfl]
      exact expectChars_append ks rest

theorem parseStringBody_roundtrip : ∀ (s rest : List Char),
    parseStringBody (Hmac.jsEscapeString s ++ '"' :: rest) = some (s, rest)
  | [], rest => by
      rw [show Hmac.jsEscapeString [] ++ '"' :: rest = '"' :: rest from rfl,
        parseStringBody.eq_def]
      simp
  | c :: cs, rest => by
      simp only [Hmac.jsEscapeString, List.append_assoc]
      unfold Hmac.jsEscapeChar
      split_ifs with h1 h2 h3 h4 h5 h6 h7 h8
      · subst h1
        rw [List.cons_append, List.cons_append, parseStringBody.eq_def]
        simp [unescapeShort, parseStringBody_roundtrip cs rest]
      · subst h2
        rw [List.cons_append, List.cons_append, parseStringBody.eq_def]
        simp [unescapeShort, parseStringBody_roundtrip cs rest]
      · subst h3
        rw [List.cons_append, List.cons_append, parseStringBody.eq_def]
        simp [unescapeShort, parseStringBody_roundtrip cs rest]
      · subst h4
        rw [List.cons_append, List.cons_append, parseStringBody.eq_def]
        simp [unescapeShort, parseStringBody_roundtrip cs rest]
      · subst h5
        rw [List.cons_append, List.cons_append, parseStringBody.eq_def]
        simp [unescapeShort, parseStringBody_roundtrip cs rest]
      · subst h6
        rw [List.cons_append, List.cons_append, parseStringBody.eq_def]
        simp [unescapeShort, parseStringBody_roundtrip cs rest]
      · subst h7
        rw [List.cons_append, List.cons_append, parseStringBody.eq_def]
        simp [unescapeShort, parseStringBody_roundtrip cs rest]
      · have hdiv : c.toNat / 16 < 16 := by omega
        have hmod : c.toNat % 16 < 16 := by omega
        have harith : ((((0 : Nat) * 16 + 0) * 16 + c.toNat / 16) * 16 + c.toNat % 16) =
            c.toNat := by omega
        simp only [List.cons_append, List.nil_append]
        rw [parseStringBody.eq_def]
        simp [parseHexDigit_hexDigitChar _ hdiv, parseHexDigit_hexDigitChar _ hmod,
          show parseHexDigit '0' = some 0 from rfl,
          parseStringBody_roundtrip cs rest, harith, Char.ofNat_toNat]
        have harith2 : c.toNat / 16 * 16 + c.toNat % 16 = c.toNat := by omega
        rw [harith2, Char.ofNat_toNat]
      · have hq : c ≠ '"' := h1
        have hb : c ≠ '\\' := h2
        simp only [List.cons_append, List.nil_append]
        rw [parseStringBody.eq_def]
        simp [if_neg hq, if_neg hb, parseStringBody_roundtrip cs rest]

/-- The input may continue only with a non-digit (so greedy number
parsing stops exactly at the end of a serialized integer). -/
def numGuard : List Char → Prop
  | [] => True
  | c :: _ => c.isDigit = false

theorem numGuard_cons {c : Char} (h : c.isDigit = false) (cs : List Char) :
    numGuard (c :: cs) := h

theorem takeWhile_digits_append (ds rest : List Char)
    (hds : ∀ c ∈ ds, c.isDigit = true) (hrest : numGuard rest) :
    (ds ++ rest).takeWhile (fun c => c.isDigit) = ds ∧
      (ds ++ rest).dropWhile (fun c => c.isDigit) = rest := by
  induction ds with
  | nil =>
      simp only [List.nil_append]
      cases rest with
      | nil => simp
      | cons c cs =>
          have : c.isDigit = false := hrest
          simp [List.takeWhile_cons, List.dropWhile_cons, this]
  | cons d ds ih =>
      have hd : d.isDigit = true := hds d (List.mem_cons_self _ _)
      have ih' := ih fun c hc => hds c (List.mem_cons_of_mem _ hc)
      simp [List.takeWhile_cons, List.dropWhile_cons, hd, ih'.1, ih'.2]

theorem natToDecimal_ne_nil (n : Nat) : natToDecimal n ≠ [] := by
  unfold natToDecimal
  split
  · simp
  · rename_i h
    intro hc
    have hv := decDigitsVal_natToDecimal n
    unfold natToDecimal at hv
    simp only [h, if_false] at hv
    rw [hc] at hv
    simp [decDigitsVal] at hv
    exact h hv.symm

theorem parseDigits_roundtrip (n : Nat) (rest : List Char) (hg : numGuard rest) :
    parseDigits (natToDecimal n ++ rest) = some (n, rest) := by
  have h := takeWhile_digits_append (natToDecimal n) rest (natToDecimal_head_digit n) hg
  unfold parseDigits
  simp only [h.1, h.2]
  rw [if_neg (natToDecimal_ne_nil n)]
  rw [decDigitsVal_natToDecimal n]

theorem parseIntToken_roundtrip (i : Int) (rest : List Char) (hg : numGuard rest) :
    parseIntToken (intToDecimal i ++ rest) = some (i, rest) := by
  unfold intToDecimal
  split
  · rename_i hneg
    have hval : -((i.natAbs : Int)) = i := by omega
    simp only [List.cons_append]
    simp [parseIntToken, parseDigits_roundtrip _ _ hg, hval]
    rw [abs_of_neg hneg, neg_neg]
  · rename_i hpos
    have hi : ((i.toNat : Int)) = i := by omega
    rcases hh : natToDecimal i.toNat with _ | ⟨c, cs⟩
    · exact absurd hh (natToDecimal_ne_nil _)
    · have hc : c.isDigit = true := by
        apply natToDecimal_head_digit
        rw [hh]; exact List.mem_cons_self _ _
      have hcm : c ≠ '-' := by
        intro hcc
        rw [hcc] at hc
        exact absurd hc (by decide)
      rw [List.cons_append]
      unfold parseIntToken
      have harg : c :: (cs ++ rest) = natToDecimal i.toNat ++ rest := by
        rw [hh, List.cons_append]
      simp only [if_neg hcm, harg, parseDigits_roundtrip _ _ hg, hi]

theorem intToDecimal_shape (i : Int) : ∃ c cs, intToDecimal i = c :: cs ∧
    45 ≤ c.toNat ∧ c.toNat ≤ 57 := by
  unfold intToDecimal
  split
  · exact ⟨'-', natToDecimal i.natAbs, rfl, by decide, by decide⟩
  · rcases hh : natToDecimal i.toNat with _ | ⟨c, cs⟩
    · exact absurd hh (natToDecimal_ne_nil _)
    · have hc : c.isDigit = true := by
        apply natToDecimal_head_digit
        rw [hh]; exact List.mem_cons_self _ _
      have := isDigit_toNat hc
      exact ⟨c, cs, rfl, by omega, by omega⟩

mutual

/-- Fuel sufficient for `parseValue` on the serialization of `v`. -/
def parseFuel : Json → Nat
  | .null => 1
  | .bool _ => 1
  | .num _ => 1
  | .str _ => 1
  | .arr l => 1 + parseFuelItems l
  | .obj l => 1 + parseFuelEntries l

/-- Fuel sufficient for `parseItems` on serialized array elements. -/
def parseFuelItems : List Json → Nat
  | [] => 1
  | x :: xs => 1 + max (parseFuel x) (parseFuelItems xs)

/-- Fuel sufficient for `parseEntries` on serialized object members. -/
def parseFuelEntries : List (String × Json) → Nat
  | [] => 1
  | (_, v) :: xs => 1 + max (parseFuel v) (parseFuelEntries xs)

end

theorem parseFuel_pos (v : Json) : 1 ≤ parseFuel v := by
  cases v <;> simp [parseFuel]

theorem parseFuelItems_pos (l : List Json) : 1 ≤ parseFuelItems l := by
  cases l <;> simp [parseFuelItems]

theorem parseFuelEntries_pos (l : List (String × Json)) : 1 ≤ parseFuelEntries l := by
  cases l with
  | nil => simp [parseFuelEntries]
  | cons p xs => obtain ⟨k, v⟩ := p; simp [parseFuelEntries]

theorem parseValue_rbracket (f : Nat) (rest : List Char) :
    parseValue f (']' :: rest) = none := by
  cases f with
  | zero => rfl
  | succ f =>
      rw [parseValue.eq_def]
      simp [parseIntToken, parseDigits, List.takeWhile_cons]

theorem parseValue_numHead (f : Nat) {c : Char} (cs : List Char)
    (h : 45 ≤ c.toNat ∧ c.toNat ≤ 57) :
    parseValue (f + 1) (c :: cs) =
      match parseIntToken (c :: cs) with
      | some (n, r) => some (.num n, r)
      | none => none := by
  have h1 : c ≠ 'n' := by intro hh; rw [hh] at h; exact absurd h (by decide)
  have h2 : c ≠ 't' := by intro hh; rw [hh] at h; exact absurd h (by decide)
  have h3 : c ≠ 'f' := by intro hh; rw [hh] at h; exact absurd h (by decide)
  have h4 : c ≠ '"' := by intro hh; rw [hh] at h; exact absurd h (by decide)
  have h5 : c ≠ '[' := by intro hh; rw [hh] at h; exact absurd h (by decide)
  have h6 : c ≠ '{' := by intro hh; rw [hh] at h; exact absurd h (by decide)
  rw [parseValue.eq_def]
  simp only [if_neg h1, if_neg h2, if_neg h3, if_neg h4, if_neg h5, if_neg h6]

mutual

theorem parseValue_roundtrip : ∀ (v : Json) (fuel : Nat) (rest : List Char),
    parseFuel v ≤ fuel → numGuard rest →
    parseValue fuel (Hmac.jsonStringify v ++ rest) = some (v, rest)
  | v, 0, rest => by
      intro hf _
      exact absurd (le_trans (parseFuel_pos v) hf) (by omega)
  | .null, fuel + 1, rest => by
      intro _ _
      rw [show Hmac.jsonStringify .null ++ rest = 'n' :: 'u' :: 'l' :: 'l' :: rest from rfl,
        parseValue.eq_def]
      simp [expectChars]
  | .bool true, fuel + 1, rest => by
      intro _ _
      rw [show Hmac.jsonStringify (.bool true) ++ rest =
        't' :: 'r' :: 'u' :: 'e' :: rest from rfl, parseValue.eq_def]
      simp [expectChars]
  | .bool false, fuel + 1, rest => by
      intro _ _
      rw [show Hmac.jsonStringify (.bool false) ++ rest =
        'f' :: 'a' :: 'l' :: 's' :: 'e' :: rest from rfl, parseValue.eq_def]
      simp [expectChars]
  | .num n, fuel + 1, rest => by
      intro _ hg
      obtain ⟨c, cs, hshape, hlo, hhi⟩ := intToDecimal_shape n
      rw [show Hmac.jsonStringify (.num n) = intToDecimal n from rfl, hshape,
        List.cons_append, parseValue_numHead fuel _ ⟨hlo, hhi⟩, ← List.cons_append,
        ← hshape, parseIntToken_roundtrip n rest hg]
  | .str s, fuel + 1, rest => by
      intro _ _
      rw [show Hmac.jsonStringify (.str s) ++ rest =
        '"' :: (Hmac.jsEscapeString s.data ++ '"' :: rest) by
          simp [Hmac.jsonStringify], parseValue.eq_def]
      simp [parseStringBody_roundtrip s.data rest, stringMk_data]
  | .arr l, fuel + 1, rest => by
      intro hf _
      have hfl : parseFuelItems l ≤ fuel := by
        simp only [parseFuel] at hf; omega
      rw [show Hmac.jsonStringify (.arr l) ++ rest =
        '[' :: (Hmac.jsonStringifyItems l ++ ']' :: rest) by
          simp [Hmac.jsonStringify], parseValue.eq_def]
      simp [parseItems_roundtrip l fuel rest hfl]
  | .obj l, fuel + 1, rest => by
      intro hf _
      have hfl : parseFuelEntries l ≤ fuel := by
        simp only [parseFuel] at hf; omega
      rw [show Hmac.jsonStringify (.obj l) ++ rest =
        '{' :: (Hmac.jsonStringifyEntries l ++ '}' :: rest) by
          simp [Hmac.jsonStringify], parseValue.eq_def]
      simp [parseEntries_roundtrip l fuel rest hfl]

theorem parseItems_roundtrip : ∀ (l : List Json) (fuel : Nat) (rest : List Char),
    parseFuelItems l ≤ fuel →
    parseItems fuel (Hmac.jsonStringifyItems l ++ ']' :: rest) = some (l, rest)
  | l, 0, rest => by
      intro hf
      exact absurd (le_trans (parseFuelItems_pos l) hf) (by omega)
  | [], fuel + 1, rest => by
      intro _
      rw [show Hmac.jsonStringifyItems [] ++ ']' :: rest = ']' :: rest from rfl,
        parseItems.eq_def]
      simp [parseValue_rbracket, expectRBracket]
  | [x], fuel + 1, rest => by
      intro hf
      have hfx : parseFuel x ≤ fuel := by
        simp only [parseFuelItems] at hf; omega
      rw [show Hmac.jsonStringifyItems [x] ++ ']' :: rest =
        Hmac.jsonStringify x ++ ']' :: rest from rfl, parseItems.eq_def]
      simp [parseValue_roundtrip x fuel (']' :: rest) hfx (numGuard_cons (by decide) _)]
  | x :: y :: xs, fuel + 1, rest => by
      intro hf
      have hfx : parseFuel x ≤ fuel := by
        simp only [parseFuelItems] at hf; omega
      have hfys : parseFuelItems (y :: xs) ≤ fuel := by
        simp only [parseFuelItems] at hf ⊢; omega
      rw [show Hmac.jsonStringifyItems (x :: y :: xs) ++ ']' :: rest =
        Hmac.jsonStringify x ++ ',' :: (Hmac.jsonStringifyItems (y :: xs) ++ ']' :: rest) by
          simp [Hmac.jsonStringifyItems], parseItems.eq_def]
      simp [parseValue_roundtrip x fuel
          (',' :: (Hmac.jsonStringifyItems (y :: xs) ++ ']' :: rest)) hfx
          (numGuard_cons (by decide) _),
        parseItems_roundtrip (y :: xs) fuel rest hfys]

theorem parseEntries_roundtrip : ∀ (l : List (String × Json)) (fuel : Nat) (rest : List Char),
    parseFuelEntries l ≤ fuel →
    parseEntries fuel (Hmac.jsonStringifyEntries l ++ '}' :: rest) = some (l, rest)
  | l, 0, rest => by
      intro hf
      exact absurd (le_trans (parseFuelEntries_pos l) hf) (by omega)
  | [], fuel + 1, rest => by
      intro _
      rw [show Hmac.jsonStringifyEntries [] ++ '}' :: rest = '}' :: rest from rfl,
        parseEntries.eq_def]
      simp
  | [(k, v)], fuel + 1, rest => by
      intro hf
      have hfv : parseFuel v ≤ fuel := by
        simp only [parseFuelEntries] at hf; omega
      rw [show Hmac.jsonStringifyEntries [(k, v)] ++ '}' :: rest =
        '"' :: (Hmac.jsEscapeString k.data ++
          '"' :: (':' :: (Hmac.jsonStringify v ++ '}' :: rest))) by
          simp [Hmac.jsonStringifyEntries], parseEntries.eq_def]
      simp [parseStringBody_roundtrip k.data (':' :: (Hmac.jsonStringify v ++ '}' :: rest)),
        parseValue_roundtrip v fuel ('}' :: rest) hfv (numGuard_cons (by decide) _), stringMk_data]
  | (k, v) :: e :: xs, fuel + 1, rest => by
      intro hf
      have hfv : parseFuel v ≤ fuel := by
        simp only [parseFuelEntries] at hf; omega
      have hfes : parseFuelEntries (e :: xs) ≤ fuel := by
        simp only [parseFuelEntries] at hf ⊢
        obtain ⟨k', v'⟩ := e
        simp only [parseFuelEntries] at hf ⊢
        omega
      rw [show Hmac.jsonStringifyEntries ((k, v) :: e :: xs) ++ '}' :: rest =
        '"' :: (Hmac.jsEscapeString k.data ++
          '"' :: (':' :: (Hmac.jsonStringify v ++
            ',' :: (Hmac.jsonStringifyEntries (e :: xs) ++ '}' :: rest)))) by
          simp [Hmac.jsonStringifyEntries], parseEntries.eq_def]
      simp [parseStringBody_roundtrip k.data
          (':' :: (Hmac.jsonStringify v ++
            ',' :: (Hmac.jsonStringifyEntries (e :: xs) ++ '}' :: rest))),
        parseValue_roundtrip v fuel
          (',' :: (Hmac.jsonStringifyEntries (e :: xs) ++ '}' :: rest)) hfv
          (numGuard_cons (by decide) _),
        parseEntries_roundtrip (e :: xs) fuel rest hfes, stringMk_data]

end

mutual

theorem parseFuel_le : ∀ v : Json, parseFuel v ≤ (Hmac.jsonStringify v).length + 1
  | .null => by simp [parseFuel]
  | .bool b => by cases b <;> simp [parseFuel]
  | .num n => by simp [parseFuel]
  | .str s => by simp [parseFuel]
  | .arr l => by
      have := parseFuelItems_le l
      simp only [parseFuel, Hmac.jsonStringify, List.length_cons, List.length_append]
      simp at this ⊢
      omega
  | .obj l => by
      have := parseFuelEntries_le l
      simp only [parseFuel, Hmac.jsonStringify, List.length_cons, List.length_append]
      simp at this ⊢
      omega

theorem parseFuelItems_le : ∀ l : List Json,
    parseFuelItems l ≤ (Hmac.jsonStringifyItems l).length + 2
  | [] => by simp [parseFuelItems, Hmac.jsonStringifyItems]
  | [x] => by
      have := parseFuel_le x
      simp only [parseFuelItems, Hmac.jsonStringifyItems, parseFuelItems]
      omega
  | x :: y :: xs => by
      have h1 := parseFuel_le x
      have h2 := parseFuelItems_le (y :: xs)
      simp only [parseFuelItems, Hmac.jsonStringifyItems, List.length_append,
        List.length_cons] at h2 ⊢
      omega

theorem parseFuelEntries_le : ∀ l : List (String × Json),
    parseFuelEntries l ≤ (Hmac.jsonStringifyEntries l).length + 2
  | [] => by simp [parseFuelEntries, Hmac.jsonStringifyEntries]
  | [(k, v)] => by
      have := parseFuel_le v
      simp only [parseFuelEntries, Hmac.jsonStringifyEntries, List.length_cons,
        List.length_append]
      omega
  | (k, v) :: e :: xs => by
      have h1 := parseFuel_le v
      have h2 := parseFuelEntries_le (e :: xs)
      obtain ⟨k', v'⟩ := e
      simp only [parseFuelEntries, Hmac.jsonStringifyEntries, List.length_cons,
        List.length_append] at h2 ⊢
      omega

end

theorem digit_ne {c d : Char} (h : c.isDigit = true) (hd : d.isDigit = false) : c ≠ d :=
  fun hc => by rw [hc, hd] at h; exact Bool.noConfusion h

theorem phpSpace_of_digit {c : Char} (h : c.isDigit = true) :
    HmacValidator.phpSpace c = false := by
  simp only [HmacValidator.phpSpace, Bool.or_eq_false_iff, decide_eq_false_iff_not]
  repeat' apply And.intro
  all_goals exact fun hc => by rw [hc] at h; exact absurd h (by decide)

theorem dropWhile_phpSpace_digit {c : Char} (cs : List Char) (hc : c.isDigit = true) :
    (c :: cs).dropWhile HmacValidator.phpSpace = c :: cs := by
  simp [List.dropWhile_cons, phpSpace_of_digit hc]

theorem phpSign_digit {c : Char} (cs : List Char) (hc : c.isDigit = true) :
    HmacValidator.phpSign (c :: cs) = (1, c :: cs) := by
  simp only [HmacValidator.phpSign]
  rw [if_neg (digit_ne hc (by decide) : c ≠ '-'), if_neg (digit_ne hc (by decide) : c ≠ '+')]

theorem takeWhile_all_digits {c : Char} {cs : List Char}
    (hc : c.isDigit = true) (hall : ∀ d ∈ cs, d.isDigit = true) :
    (c :: cs).takeWhile (fun c => c.isDigit) = c :: cs ∧
      (c :: cs).drop (c :: cs).length = [] := by
  have hds : ∀ d ∈ c :: cs, d.isDigit = true := by
    intro d hd
    rcases List.mem_cons.mp hd with h1 | h2
    · rw [h1]; exact hc
    · exact hall d h2
  have ht := takeWhile_digits_append (c :: cs) [] hds trivial
  rw [List.append_nil] at ht
  exact ⟨ht.1, List.drop_length _⟩

theorem phpNumBody_digits {c : Char} {cs : List Char}
    (hc : c.isDigit = true) (hall : ∀ d ∈ cs, d.isDigit = true) :
    HmacValidator.phpNumBody (c :: cs) =
      some ((decDigitsVal 0 (c :: cs) : Int), 0, []) := by
  obtain ⟨ht, _⟩ := takeWhile_all_digits hc hall
  unfold HmacValidator.phpNumBody
  rw [ht, List.drop_length]
  simp

theorem phpNumeric_digits {c : Char} {cs : List Char}
    (hc : c.isDigit = true) (hall : ∀ d ∈ cs, d.isDigit = true) :
    HmacValidator.phpNumeric (c :: cs) = some ((decDigitsVal 0 (c :: cs) : Int), 0) := by
  unfold HmacValidator.phpNumeric
  rw [dropWhile_phpSpace_digit cs hc, phpSign_digit cs hc]
  simp only []
  rw [phpNumBody_digits hc hall]
  simp [HmacValidator.phpNumExp]

theorem phpNumeric_neg_digits {c : Char} {cs : List Char}
    (hc : c.isDigit = true) (hall : ∀ d ∈ cs, d.isDigit = true) :
    HmacValidator.phpNumeric ('-' :: c :: cs) =
      some (-(decDigitsVal 0 (c :: cs) : Int), 0) := by
  unfold HmacValidator.phpNumeric
  have hdw : ('-' :: c :: cs).dropWhile HmacValidator.phpSpace = '-' :: c :: cs := by
    rw [List.dropWhile_cons, if_neg (by decide)]
  have hsg : HmacValidator.phpSign ('-' :: c :: cs) = (-1, c :: cs) := by
    simp [HmacValidator.phpSign]
  rw [hdw, hsg]
  simp only []
  rw [phpNumBody_digits hc hall]
  simp [HmacValidator.phpNumExp]

theorem phpKeyOf_of_not_numeric (k : String)
    (h : (HmacValidator.phpNumeric k.data).isNone = true) :
    HmacValidator.phpKeyOf k = .s k := by
  have hnone : HmacValidator.phpNumeric k.data = none := Option.isNone_iff_eq_none.mp h
  unfold HmacValidator.phpKeyOf
  split
  · rfl
  · rename_i c cs heq
    by_cases hcm : c = '-'
    · rw [if_pos hcm]
      subst hcm
      rcases hcond : (HmacValidator.canonNatShape cs && cs != ['0'] &&
          decide ((decDigitsVal 0 cs : Int) ≤ 2 ^ 63)) with _ | _
      · rw [if_neg Bool.false_ne_true]
      · exfalso
        have hshape : HmacValidator.canonNatShape cs = true := by
          simp only [Bool.and_eq_true] at hcond
          exact hcond.1.1
        rcases cs with _ | ⟨c', cs'⟩
        · exact absurd hshape (by decide)
        · simp only [HmacValidator.canonNatShape, Bool.and_eq_true] at hshape
          have hall : ∀ d ∈ cs', d.isDigit = true := by
            intro d hd
            exact List.all_eq_true.mp hshape.2 d hd
          rw [heq, phpNumeric_neg_digits hshape.1.1 hall] at hnone
          exact Option.noConfusion hnone
    · rw [if_neg hcm]
      rcases hcond : (HmacValidator.canonNatShape (c :: cs) &&
          decide ((decDigitsVal 0 (c :: cs) : Int) ≤ 2 ^ 63 - 1)) with _ | _
      · rw [if_neg Bool.false_ne_true]
      · exfalso
        have hshape : HmacValidator.canonNatShape (c :: cs) = true := by
          simp only [Bool.and_eq_true] at hcond
          exact hcond.1
        simp only [HmacValidator.canonNatShape, Bool.and_eq_true] at hshape
        have hall : ∀ d ∈ cs, d.isDigit = true := by
          intro d hd
          exact List.all_eq_true.mp hshape.2 d hd
        rw [heq, phpNumeric_digits hshape.1.1 hall] at hnone
        exact Option.noConfusion hnone

theorem jsonToPhpEntries_eq_map : ∀ l : List (String × Json),
    noNumericKeysEntries l = true →
    HmacValidator.jsonToPhpEntries l =
      l.map (fun p => (.s p.1, HmacValidator.jsonToPhp p.2))
  | [], _ => rfl
  | (k, v) :: xs, h => by
      simp only [noNumericKeysEntries, Bool.and_eq_true] at h
      simp only [HmacValidator.jsonToPhpEntries, List.map_cons]
      rw [phpKeyOf_of_not_numeric k h.1.1, jsonToPhpEntries_eq_map xs h.2]

theorem strCmpChars_ne_gt (x y : List Char) :
    (HmacValidator.strCmpChars x y ≠ .gt) ↔ keyLt y x = false := by
  unfold HmacValidator.strCmpChars
  split_ifs with h1 h2
  · simp [keyLt_asymm x y h1]
  · simp [h2]
  · simp only [Bool.not_eq_true] at h2
    simp [h2]

theorem phpKeyLe_str_iff {a b : String × Json}
    (ha : (HmacValidator.phpNumeric a.1.data).isNone = true)
    (hb : (HmacValidator.phpNumeric b.1.data).isNone = true)
    (va vb : HmacValidator.PhpVal) :
    HmacValidator.phpKeyLe (.s a.1, va) (.s b.1, vb) ↔ pairLe a b := by
  have ha' : HmacValidator.phpNumeric a.1.data = none := Option.isNone_iff_eq_none.mp ha
  have hb' : HmacValidator.phpNumeric b.1.data = none := Option.isNone_iff_eq_none.mp hb
  unfold HmacValidator.phpKeyLe pairLe
  simp only [HmacValidator.phpKeyCmp, ha', hb']
  exact strCmpChars_ne_gt a.1.data b.1.data

theorem intCmp_ne_gt {a b : Int} (h : a ≤ b) : HmacValidator.intCmp a b ≠ .gt := by
  unfold HmacValidator.intCmp
  split_ifs with h1 h2
  · exact fun hc => Ordering.noConfusion hc
  · exfalso; omega
  · exact fun hc => Ordering.noConfusion hc

theorem sortedEntries_key_ge : ∀ (xs : List Json) (n : Int),
    ∀ p ∈ HmacValidator.sortArrayKeysEntries (HmacValidator.jsonToPhpItems n xs),
      ∃ k : Int, p.1 = .i k ∧ n ≤ k
  | [], n => by
      intro p hp
      simp [HmacValidator.jsonToPhpItems, HmacValidator.sortArrayKeysEntries] at hp
  | x :: xs, n => by
      intro p hp
      simp only [HmacValidator.jsonToPhpItems, HmacValidator.sortArrayKeysEntries,
        List.mem_cons] at hp
      rcases hp with h1 | h2
      · exact ⟨n, by rw [h1], le_refl n⟩
      · obtain ⟨k, hk, hkge⟩ := sortedEntries_key_ge xs (n + 1) p h2
        exact ⟨k, hk, by omega⟩

theorem sortedEntries_sorted : ∀ (xs : List Json) (n : Int),
    List.Sorted HmacValidator.phpKeyLe
      (HmacValidator.sortArrayKeysEntries (HmacValidator.jsonToPhpItems n xs))
  | [], n => by
      simp [HmacValidator.jsonToPhpItems, HmacValidator.sortArrayKeysEntries]
  | x :: xs, n => by
      simp only [HmacValidator.jsonToPhpItems, HmacValidator.sortArrayKeysEntries]
      rw [List.sorted_cons]
      constructor
      · intro p hp
        obtain ⟨k, hk, hkge⟩ := sortedEntries_key_ge xs (n + 1) p hp
        unfold HmacValidator.phpKeyLe
        rw [hk]
        simp only [HmacValidator.phpKeyCmp]
        exact intCmp_ne_gt (by omega)
      · exact sortedEntries_sorted xs (n + 1)

theorem sortArrayKeysEntries_map_str : ∀ L : List (String × Json),
    HmacValidator.sortArrayKeysEntries
        (L.map (fun p => (.s p.1, HmacValidator.jsonToPhp p.2))) =
      L.map (fun p => (.s p.1, HmacValidator.sortArrayKeys (HmacValidator.jsonToPhp p.2)))
  | [] => by simp [HmacValidator.sortArrayKeysEntries]
  | (k, v) :: xs => by
      simp only [List.map_cons, HmacValidator.sortArrayKeysEntries]
      rw [sortArrayKeysEntries_map_str xs]

theorem phpIsListFrom_items : ∀ (xs : List Json) (n : Int),
    HmacValidator.phpIsListFrom n
      (HmacValidator.sortArrayKeysEntries (HmacValidator.jsonToPhpItems n xs)) = true
  | [], n => by
      simp [HmacValidator.jsonToPhpItems, HmacValidator.sortArrayKeysEntries,
        HmacValidator.phpIsListFrom]
  | x :: xs, n => by
      simp only [HmacValidator.jsonToPhpItems, HmacValidator.sortArrayKeysEntries,
        HmacValidator.phpIsListFrom]
      rw [phpIsListFrom_items xs (n + 1)]
      simp

theorem phpEncodeEntries_pointwise : ∀ L : List (String × Json),
    (∀ p ∈ L, HmacValidator.phpJsonEncode
        (HmacValidator.sortArrayKeys (HmacValidator.jsonToPhp p.2)) =
      Hmac.jsonStringify (Hmac.sortObjectKeys p.2)) →
    HmacValidator.phpJsonEncodeEntries
        (L.map (fun p =>
          (.s p.1, HmacValidator.sortArrayKeys (HmacValidator.jsonToPhp p.2)))) =
      Hmac.jsonStringifyEntries (L.map (fun p => (p.1, Hmac.sortObjectKeys p.2)))
  | [], _ => rfl
  | [(k, v)], h => by
      have hkv := h (k, v) (by simp)
      dsimp only at hkv
      simp only [List.map_cons, List.map_nil, HmacValidator.phpJsonEncodeEntries,
        Hmac.jsonStringifyEntries, HmacValidator.phpKeyString]
      rw [phpEscapeString_eq_jsEscapeString, hkv]
  | (k, v) :: e :: xs, h => by
      have hkv := h (k, v) (by simp)
      dsimp only at hkv
      have hrec := phpEncodeEntries_pointwise (e :: xs)
        (fun p hp => h p (List.mem_cons_of_mem _ hp))
      simp only [List.map_cons, HmacValidator.phpJsonEncodeEntries,
        Hmac.jsonStringifyEntries, HmacValidator.phpKeyString] at hrec ⊢
      rw [phpEscapeString_eq_jsEscapeString, hkv, hrec]

mutual

/-- On a value without empty objects and without numeric object keys,
`json_encode(sortArrayKeys(json_decode(·, true)))` produces exactly the
signing side's `JSON.stringify(sortObjectKeys(·))` bytes. -/
theorem phpAgree : ∀ v : Json, Hmac.noEmptyObj v = true → noNumericKeys v = true →
    HmacValidator.phpJsonEncode (HmacValidator.sortArrayKeys (HmacValidator.jsonToPhp v)) =
      Hmac.jsonStringify (Hmac.sortObjectKeys v)
  | .null, _, _ => by
      simp [HmacValidator.jsonToPhp, HmacValidator.sortArrayKeys,
        HmacValidator.phpJsonEncode, Hmac.sortObjectKeys, Hmac.jsonStringify]
  | .bool true, _, _ => by
      simp [HmacValidator.jsonToPhp, HmacValidator.sortArrayKeys,
        HmacValidator.phpJsonEncode, Hmac.sortObjectKeys, Hmac.jsonStringify]
  | .bool false, _, _ => by
      simp [HmacValidator.jsonToPhp, HmacValidator.sortArrayKeys,
        HmacValidator.phpJsonEncode, Hmac.sortObjectKeys, Hmac.jsonStringify]
  | .num n, _, _ => by
      simp [HmacValidator.jsonToPhp, HmacValidator.sortArrayKeys,
        HmacValidator.phpJsonEncode, Hmac.sortObjectKeys, Hmac.jsonStringify]
  | .str s, _, _ => by
      simp [HmacValidator.jsonToPhp, HmacValidator.sortArrayKeys,
        HmacValidator.phpJsonEncode, Hmac.sortObjectKeys, Hmac.jsonStringify,
        phpEscapeString_eq_jsEscapeString]
  | .arr xs, hne, hnk => by
      have hne' : Hmac.noEmptyObjList xs = true := by
        simpa [Hmac.noEmptyObj] using hne
      have hnk' : noNumericKeysList xs = true := by
        simpa [noNumericKeys] using hnk
      simp only [HmacValidator.jsonToPhp, HmacValidator.sortArrayKeys,
        Hmac.sortObjectKeys, Hmac.jsonStringify]
      rw [List.Sorted.insertionSort_eq (sortedEntries_sorted xs 0)]
      simp only [HmacValidator.phpJsonEncode]
      rw [if_pos (by rw [phpIsListFrom_items xs 0])]
      rw [phpAgreeItems xs 0 hne' hnk']
  | .obj l, hne, hnk => by
      have hnk' : noNumericKeysEntries l = true := by
        simpa [noNumericKeys] using hnk
      have hne2 : Hmac.noEmptyObjEntries l = true := by
        have hx := hne
        simp only [Hmac.noEmptyObj, Bool.and_eq_true] at hx
        exact hx.2
      have hdec : HmacValidator.jsonToPhp (.obj l) =
          .arr (l.map (fun p => (.s p.1, HmacValidator.jsonToPhp p.2))) := by
        simp only [HmacValidator.jsonToPhp]
        rw [jsonToPhpEntries_eq_map l hnk']
      have hiff : ∀ a ∈ l, ∀ b ∈ l,
          (pairLe a b ↔
            HmacValidator.phpKeyLe
              (HmacValidator.PhpKey.s a.1,
                HmacValidator.sortArrayKeys (HmacValidator.jsonToPhp a.2))
              (HmacValidator.PhpKey.s b.1,
                HmacValidator.sortArrayKeys (HmacValidator.jsonToPhp b.2))) := by
        intro a ha b hb
        have hA := ((noNumericKeysEntries_iff_forall l).mp hnk' a ha).1
        have hB := ((noNumericKeysEntries_iff_forall l).mp hnk' b hb).1
        exact (phpKeyLe_str_iff hA hB _ _).symm
      have hrhs : Hmac.sortObjectKeys (.obj l) =
          .obj ((l.insertionSort pairLe).map (fun p => (p.1, Hmac.sortObjectKeys p.2))) := by
        simp only [Hmac.sortObjectKeys]
        rw [Hmac.sortObjectKeysEntries_eq_map]
        rw [← List.map_insertionSort pairLe pairLe
          (fun p => (p.1, Hmac.sortObjectKeys p.2)) l (fun a _ b _ => Iff.rfl)]
      rw [hdec, hrhs]
      simp only [HmacValidator.sortArrayKeys]
      rw [sortArrayKeysEntries_map_str l]
      rw [← List.map_insertionSort pairLe HmacValidator.phpKeyLe
        (fun p => (HmacValidator.PhpKey.s p.1,
          HmacValidator.sortArrayKeys (HmacValidator.jsonToPhp p.2))) l hiff]
      have hpoint : ∀ q ∈ l.insertionSort pairLe,
          HmacValidator.phpJsonEncode
              (HmacValidator.sortArrayKeys (HmacValidator.jsonToPhp q.2)) =
            Hmac.jsonStringify (Hmac.sortObjectKeys q.2) := by
        intro q hq
        exact phpAgreeEntriesMem l hne2 hnk' q
          ((List.perm_insertionSort pairLe l).subset hq)
      rcases hL : l.insertionSort pairLe with _ | ⟨p, ps⟩
      · exfalso
        have hlen := (List.perm_insertionSort pairLe l).length_eq
        rw [hL] at hlen
        cases l with
        | nil => simp [Hmac.noEmptyObj] at hne
        | cons a as => exact absurd hlen.symm (by simp)
      · rw [hL] at hpoint
        have hnotlist : HmacValidator.phpIsListFrom 0
            ((p :: ps).map (fun p =>
              (.s p.1, HmacValidator.sortArrayKeys (HmacValidator.jsonToPhp p.2)))) =
              false := by
          simp only [List.map_cons]
          rfl
        simp only [HmacValidator.phpJsonEncode, Hmac.jsonStringify]
        rw [hnotlist]
        simp only [Bool.false_eq_true, if_false]
        rw [phpEncodeEntries_pointwise (p :: ps) hpoint]

theorem phpAgreeItems : ∀ (xs : List Json) (n : Int),
    Hmac.noEmptyObjList xs = true → noNumericKeysList xs = true →
    HmacValidator.phpJsonEncodeItems
        (HmacValidator.sortArrayKeysEntries (HmacValidator.jsonToPhpItems n xs)) =
      Hmac.jsonStringifyItems (Hmac.sortObjectKeysList xs)
  | [], _, _, _ => by
      simp [HmacValidator.jsonToPhpItems, HmacValidator.sortArrayKeysEntries,
        HmacValidator.phpJsonEncodeItems, Hmac.sortObjectKeysList, Hmac.jsonStringifyItems]
  | [x], n, hne, hnk => by
      simp only [Hmac.noEmptyObjList, Bool.and_eq_true] at hne
      simp only [noNumericKeysList, Bool.and_eq_true] at hnk
      simp only [HmacValidator.jsonToPhpItems, HmacValidator.sortArrayKeysEntries,
        Hmac.sortObjectKeysList, HmacValidator.phpJsonEncodeItems,
        Hmac.jsonStringifyItems]
      exact phpAgree x hne.1 hnk.1
  | x :: y :: xs, n, hne, hnk => by
      simp only [Hmac.noEmptyObjList, Bool.and_eq_true] at hne
      simp only [noNumericKeysList, Bool.and_eq_true] at hnk
      have hrec := phpAgreeItems (y :: xs) (n + 1)
        (by simp only [Hmac.noEmptyObjList, Bool.and_eq_true]; exact hne.2)
        (by simp only [noNumericKeysList, Bool.and_eq_true]; exact hnk.2)
      simp only [HmacValidator.jsonToPhpItems, HmacValidator.sortArrayKeysEntries,
        HmacValidator.phpJsonEncodeItems, Hmac.sortObjectKeysList,
        Hmac.jsonStringifyItems] at hrec ⊢
      rw [phpAgree x hne.1 hnk.1, hrec]

theorem phpAgreeEntriesMem : ∀ (l : List (String × Json)),
    Hmac.noEmptyObjEntries l = true → noNumericKeysEntries l = true →
    ∀ p ∈ l, HmacValidator.phpJsonEncode
        (HmacValidator.sortArrayKeys (HmacValidator.jsonToPhp p.2)) =
      Hmac.jsonStringify (Hmac.sortObjectKeys p.2)
  | [], _, _ => by
      intro p hp
      exact absurd hp (List.not_mem_nil p)
  | (k, v) :: xs, hne, hnk => by
      simp only [Hmac.noEmptyObjEntries, Bool.and_eq_true] at hne
      simp only [noNumericKeysEntries, Bool.and_eq_true] at hnk
      intro p hp
      rcases List.mem_cons.mp hp with h1 | h2
      · rw [h1]
        exact phpAgree v hne.1 hnk.1.2
      · exact phpAgreeEntriesMem xs hne.2 hnk.2 p h2

end

theorem generateSignature_ok (sha256hex : List Char → List Char)
    (hmacSha256hex : List Char → List Char → List Char)
    (secret : List Char) (bffId : String) (ts : Nat) (method path : String)
    (body : Option Json) (hsec : secret ≠ []) :
    Hmac.generateSignature sha256hex hmacSha256hex secret bffId ts method path body =
      .ok ⟨bffId, natToDecimal ts,
        hmacSha256hex secret (natToDecimal ts ++ ':' :: method.data ++ ':' :: path.data ++
          ':' :: Hmac.hashBody sha256hex body),
        Hmac.normalizedBodyOf body⟩ := by
  unfold Hmac.generateSignature
  rw [if_neg hsec]

theorem proxyPrepare_pathError (sha256hex : List Char → List Char)
    (hmacSha256hex : List Char → List Char → List Char)
    (secret : List Char) (bffId : String) (input : Route.ProxyInput) (e : BffException)
    (hpath : Route.validatePathSegments input.pathSegments = .error e) :
    Route.proxyPrepare sha256hex hmacSha256hex secret bffId input =
      .error { status := 500, error := e.message, message := none, code := some e.code } := by
  unfold Route.proxyPrepare
  rw [hpath]

theorem proxyPrepare_noCookie401 (sha256hex : List Char → List Char)
    (hmacSha256hex : List Char → List Char → List Char)
    (secret : List Char) (bffId : String) (input : Route.ProxyInput)
    (hpath : Route.validatePathSegments input.pathSegments = .ok ())
    (hsec : secret ≠ [])
    (hauth : Route.tokenTruthy input.authToken = false)
    (hpub : Route.isPublicRoute (Route.laravelPathOf input) = false) :
    Route.proxyPrepare sha256hex hmacSha256hex secret bffId input =
      .error { status := 401, error := "Unauthorized",
               message := some "No auth token found", code := none } := by
  unfold Route.proxyPrepare
  rw [hpath, generateSignature_ok sha256hex hmacSha256hex secret bffId input.timestamp
    input.method (Route.laravelPathOf input) (Route.signedBodyOf input) hsec]
  dsimp only
  rw [hauth, hpub]
  rfl

theorem proxyPrepare_public_ok (sha256hex : List Char → List Char)
    (hmacSha256hex : List Char → List Char → List Char)
    (secret : List Char) (bffId : String) (input : Route.ProxyInput)
    (hpath : Route.validatePathSegments input.pathSegments = .ok ())
    (hsec : secret ≠ [])
    (hauth : Route.tokenTruthy input.authToken = false)
    (hpub : Route.isPublicRoute (Route.laravelPathOf input) = true) :
    Route.proxyPrepare sha256hex hmacSha256hex secret bffId input =
      .ok { laravelPath := Route.laravelPathOf input,
            headers := Route.baseHeaders ⟨bffId, natToDecimal input.timestamp,
              hmacSha256hex secret (natToDecimal input.timestamp ++ ':' ::
                input.method.data ++ ':' :: (Route.laravelPathOf input).data ++ ':' ::
                Hmac.hashBody sha256hex (Route.signedBodyOf input)),
              Hmac.normalizedBodyOf (Route.signedBodyOf input)⟩,
            body := Hmac.normalizedBodyOf (Route.signedBodyOf input) } := by
  unfold Route.proxyPrepare
  rw [hpath, generateSignature_ok sha256hex hmacSha256hex secret bffId input.timestamp
    input.method (Route.laravelPathOf input) (Route.signedBodyOf input) hsec]
  dsimp only
  rw [hauth, hpub]
  rfl

theorem proxyPrepare_cookie_ok (sha256hex : List Char → List Char)
    (hmacSha256hex : List Char → List Char → List Char)
    (secret : List Char) (bffId : String) (input : Route.ProxyInput) (tok : String)
    (hpath : Route.validatePathSegments input.pathSegments = .ok ())
    (hsec : secret ≠ [])
    (hauth : input.authToken = some tok)
    (htok : tok ≠ "") :
    Route.proxyPrepare sha256hex hmacSha256hex secret bffId input =
      .ok { laravelPath := Route.laravelPathOf input,
            headers := Route.baseHeaders ⟨bffId, natToDecimal input.timestamp,
              hmacSha256hex secret (natToDecimal input.timestamp ++ ':' ::
                input.method.data ++ ':' :: (Route.laravelPathOf input).data ++ ':' ::
                Hmac.hashBody sha256hex (Route.signedBodyOf input)),
              Hmac.normalizedBodyOf (Route.signedBodyOf input)⟩ ++
              [("Authorization", "Bearer " ++ tok)],
            body := Hmac.normalizedBodyOf (Route.signedBodyOf input) } := by
  unfold Route.proxyPrepare
  rw [hpath, generateSignature_ok sha256hex hmacSha256hex secret bffId input.timestamp
    input.method (Route.laravelPathOf input) (Route.signedBodyOf input) hsec]
  dsimp only
  rw [hauth]
  simp [Route.tokenTruthy, htok]

/-! ## Relay-phase behaviour of the proxy -/

instance {ε α : Type} [DecidableEq ε] [DecidableEq α] : DecidableEq (Except ε α) := fun a b =>
  match a, b with
  | .error e, .error e' =>
      if h : e = e' then .isTrue (by rw [h])
      else .isFalse (by intro hc; injection hc; exact h ‹_›)
  | .ok x, .ok y =>
      if h : x = y then .isTrue (by rw [h])
      else .isFalse (by intro hc; injection hc; exact h ‹_›)
  | .error _, .ok _ => .isFalse (fun hc => Except.noConfusion hc)
  | .ok _, .error _ => .isFalse (fun hc => Except.noConfusion hc)

/-! ## Claim theorems -/

theorem phpIntCast_intToDecimal (i : Int) : phpIntCast (intToDecimal i) = i := by
  unfold intToDecimal
  split
  · rename_i hneg
    simp [phpIntCast, decDigitsVal_natToDecimal]
    rw [abs_of_neg hneg, neg_neg]
  · rw [phpIntCast_natToDecimal]
    omega

/-- C5: the validator's freshness stage accepts a received timestamp `t`
against current time `now` iff `|now − t| ≤ 300`; a timestamp 301 seconds
in the past is rejected with the timestamp-expired error, 299 seconds in
the past is accepted, and the boundary at exactly 300 seconds is
accepted. -/
theorem C5_timestamp_window :
    (∀ (now t : Int) (idH : Option String) (sigH : Option (List Char))
        (m p : String) (content : List Char),
      (HmacValidator.validateTimestamp now
          ⟨idH, some (intToDecimal t), sigH, m, p, content⟩ = .ok () ↔
        (now - t).natAbs ≤ 300) ∧
      ((now - t).natAbs > 300 →
        HmacValidator.validateTimestamp now
          ⟨idH, some (intToDecimal t), sigH, m, p, content⟩ =
          .error .timestampExpired)) ∧
    HmacValidator.validateTimestamp 1000 ⟨none, some (intToDecimal 699), none, "", "", []⟩ =
      .error .timestampExpired ∧
    HmacValidator.validateTimestamp 1000 ⟨none, some (intToDecimal 701), none, "", "", []⟩ =
      .ok () ∧
    HmacValidator.validateTimestamp 1000 ⟨none, some (intToDecimal 700), none, "", "", []⟩ =
      .ok () := by
  refine ⟨?_, by decide, by decide, by decide⟩
  intro now t idH sigH m p content
  unfold HmacValidator.validateTimestamp
  simp only [Option.getD_some, phpIntCast_intToDecimal]
  constructor
  · constructor
    · intro h
      by_contra hgt
      rw [if_pos (by omega)] at h
      exact Except.noConfusion h
    · intro h
      rw [if_neg (by omega)]
  · intro h
    rw [if_pos (by omega)]

/-- Witness for C5: at `now = 1000`, `t = 700` (exactly 300 seconds in the
past) the freshness stage accepts. -/
theorem C5_timestamp_window_witness :
    HmacValidator.validateTimestamp 1000
      ⟨none, some (intToDecimal 700), none, "", "", []⟩ = .ok () :=
  (C5_timestamp_window.1 1000 700 none none "" "" []).1.mpr (by decide)

/-- A path segment that any of the four guard checks rejects. -/
def badSegment (s : String) : Prop :=
  s = "" ∨ s = "." ∨ s = ".." ∨ Route.hasInfix "://".data s.data = true ∨
  List.isPrefixOf "//".data s.data = true ∨ Route.safePathSegment s = false

theorem checkSegment_bad (s : String) (h : badSegment s) :
    ∃ e, Route.checkSegment s = .error e := by
  unfold Route.checkSegment
  split_ifs with h1 h2 h3 h4
  · exact ⟨_, rfl⟩
  · exact ⟨_, rfl⟩
  · exact ⟨_, rfl⟩
  · exact ⟨_, rfl⟩
  · exfalso
    simp only [Bool.or_eq_true, decide_eq_true_eq, not_or] at h2 h3
    simp only [Bool.not_eq_true'] at h4
    rcases h with h | h | h | h | h | h
    · exact h1 h
    · exact h2.2 h
    · exact h2.1 h
    · rw [h] at h3; exact absurd rfl h3.1
    · rw [h] at h3; exact absurd rfl h3.2
    · exact h4 h

theorem validatePathSegments_bad : ∀ segs : List String,
    (∃ s ∈ segs, badSegment s) → Route.validatePathSegments segs ≠ .ok ()
  | [], h => by simp at h
  | s :: rest, h => by
      obtain ⟨t, ht, hbad⟩ := h
      rcases List.mem_cons.mp ht with rfl | htail
      · obtain ⟨e, he⟩ := checkSegment_bad t hbad
        unfold Route.validatePathSegments
        rw [he]
        exact fun hc => Except.noConfusion hc
      · unfold Route.validatePathSegments
        rcases hc : Route.checkSegment s with e | u
        · exact fun hcon => Except.noConfusion hcon
        · obtain ⟨⟩ := u
          exact validatePathSegments_bad rest ⟨t, htail, hbad⟩

/-- C6: `validatePathSegments` rejects every segment list containing an
empty segment, `.` or `..`, a segment containing `://` or starting with
`//`, or a segment outside `[A-Za-z0-9_-]+`; in particular
`["..","etc"]`, `["http:", "", "evil.com"]` and `["a b"]` are rejected
with the source's exact messages, and `["users","42","roles"]` is
accepted. -/
theorem C6_path_guard :
    (∀ segs : List String, (∃ s ∈ segs, badSegment s) →
      Route.validatePathSegments segs ≠ .ok ()) ∧
    Route.validatePathSegments ["..", "etc"] =
      .error ⟨.INVALID_SIGNATURE, "Invalid path: traversal not allowed"⟩ ∧
    Route.validatePathSegments ["http:", "", "evil.com"] =
      .error ⟨.INVALID_SIGNATURE, "Invalid path: forbidden characters"⟩ ∧
    Route.validatePathSegments ["a b"] =
      .error ⟨.INVALID_SIGNATURE, "Invalid path: forbidden characters"⟩ ∧
    Route.validatePathSegments ["users", "42", "roles"] = .ok () :=
  ⟨validatePathSegments_bad, by decide, by decide, by decide, by decide⟩

/-- Witness for C6: the universally quantified part applied to the
concrete traversal attempt `[".."]`. -/
theorem C6_path_guard_witness : Route.validatePathSegments [".."] ≠ .ok () :=
  C6_path_guard.1 [".."] ⟨"..", by decide, by unfold badSegment; decide⟩

/-- C7: the canonicalizer is idempotent, its serialized bytes are
invariant under permuting the key insertion order of every nested object
(JavaScript objects have distinct keys), and it preserves array order and
scalar values unchanged. -/
theorem C7_canonicalizer_algebra :
    (∀ v : Json, Hmac.sortObjectKeys (Hmac.sortObjectKeys v) = Hmac.sortObjectKeys v) ∧
    (∀ v w : Json, KeyPerm v w → wfJson v = true →
      Hmac.jsonStringify (Hmac.sortObjectKeys v) =
        Hmac.jsonStringify (Hmac.sortObjectKeys w)) ∧
    (∀ l : List Json, Hmac.sortObjectKeys (.arr l) = .arr (l.map Hmac.sortObjectKeys)) ∧
    (∀ n : Int, Hmac.sortObjectKeys (.num n) = .num n) ∧
    (∀ s : String, Hmac.sortObjectKeys (.str s) = .str s) ∧
    (∀ b : Bool, Hmac.sortObjectKeys (.bool b) = .bool b) ∧
    Hmac.sortObjectKeys .null = .null := by
  refine ⟨Hmac.sortObjectKeys_idem, ?_, ?_, fun _ => rfl, fun _ => rfl, fun _ => rfl, rfl⟩
  · intro v w hp hwf
    rw [keyPerm_sortObjectKeys v w hp hwf]
  · intro l
    simp [Hmac.sortObjectKeys, Hmac.sortObjectKeysList_eq_map]

/-- Witness for C7: idempotence at a two-key object, and byte-invariance
between `{"b":1,"a":2}` and `{"a":2,"b":1}`. -/
theorem C7_canonicalizer_algebra_witness :
    Hmac.sortObjectKeys (Hmac.sortObjectKeys (.obj [("b", .num 1), ("a", .num 2)])) =
      Hmac.sortObjectKeys (.obj [("b", .num 1), ("a", .num 2)]) ∧
    Hmac.jsonStringify (Hmac.sortObjectKeys (.obj [("b", .num 1), ("a", .num 2)])) =
      Hmac.jsonStringify (Hmac.sortObjectKeys (.obj [("a", .num 2), ("b", .num 1)])) := by
  constructor
  · exact C7_canonicalizer_algebra.1 _
  · refine C7_canonicalizer_algebra.2.1 _ _ ?_ (by decide)
    exact @KeyPerm.obj [("b", .num 1), ("a", .num 2)] [("b", .num 1), ("a", .num 2)]
      [("a", .num 2), ("b", .num 1)] (.cons (.num 1) (.cons (.num 2) .nil))
      (List.Perm.swap ("a", Json.num 2) ("b", Json.num 1) [])

/-- C2 (amended): for every truthy body none of whose strings contains a
bare whitespace character, the byte string hashed into `bodyHash` is
exactly the `normalizedBody` returned for transmission — the signature
covers the bytes that are sent, and only those. -/
theorem C2_bodyHash_covers_transmitted_bytes :
    ∀ (sha256hex : List Char → List Char) (body : Json),
      Hmac.jsTruthy body = true → Hmac.wsSafe body = true →
      Hmac.normalizedBodyOf (some body) = some (Hmac.hashBodyBytes body) ∧
      Hmac.hashBody sha256hex (some body) = sha256hex (Hmac.hashBodyBytes body) := by
  intro sha256hex body ht hws
  have hnb : Hmac.normalizedBodyOf (some body) =
      some (Hmac.jsonStringify (Hmac.sortObjectKeys body)) := by
    cases body
    · exact absurd ht (by decide)
    · rfl
    · rfl
    · rfl
    · rfl
    · rfl
  constructor
  · rw [hnb]
    unfold Hmac.hashBodyBytes
    rw [stripJsWhitespace_stringify _ (Hmac.wsSafe_sortObjectKeys _ hws)]
  · rw [show Hmac.hashBody sha256hex (some body) =
      if Hmac.jsTruthy body = true then sha256hex (Hmac.hashBodyBytes body) else []
      from rfl, if_pos ht]

/-- Counterexample to C2 as stated: for the body `{"a":"x y"}` the bytes
hashed into the signature are `{"a":"xy"}` (whitespace stripped), while
the transmitted `normalizedBody` is `{"a":"x y"}` — the signature does
not cover the bytes that are sent. -/
theorem C2_counterexample :
    Hmac.normalizedBodyOf (some (.obj [("a", .str "x y")])) =
      some "\x7b\"a\":\"x y\"\x7d".data ∧
    Hmac.hashBodyBytes (.obj [("a", .str "x y")]) = "\x7b\"a\":\"xy\"\x7d".data ∧
    some (Hmac.hashBodyBytes (.obj [("a", .str "x y")])) ≠
      Hmac.normalizedBodyOf (some (.obj [("a", .str "x y")])) := by
  decide

/-- Witness for C2: the amended statement applied to the whitespace-free
body `{"a":"xy"}` with the identity digest. -/
theorem C2_bodyHash_covers_transmitted_bytes_witness :
    Hmac.normalizedBodyOf (some (.obj [("a", .str "xy")])) =
      some (Hmac.hashBodyBytes (.obj [("a", .str "xy")])) ∧
    Hmac.hashBody (fun l => l) (some (.obj [("a", .str "xy")])) =
      Hmac.hashBodyBytes (.obj [("a", .str "xy")]) :=
  C2_bodyHash_covers_transmitted_bytes (fun l => l) (.obj [("a", .str "xy")])
    (by decide) (by decide)

/-- C10: the falsy scalar bodies `0`, `false` and `""` hash as if the
request had no body (`bodyHash` is the empty string, as for an absent
body), yet `generateSignature` still returns a non-empty
`normalizedBody` (`"0"`, `"false"`, `"\"\""`) for transmission — the
transmitted body is not the body covered by the signature. -/
theorem C10_falsy_bodies :
    ∀ sha256hex : List Char → List Char,
      (Hmac.hashBody sha256hex (some (.num 0)) = [] ∧
       Hmac.hashBody sha256hex (some (.bool false)) = [] ∧
       Hmac.hashBody sha256hex (some (.str "")) = [] ∧
       Hmac.hashBody sha256hex none = []) ∧
      (Hmac.normalizedBodyOf (some (.num 0)) = some "0".data ∧
       Hmac.normalizedBodyOf (some (.bool false)) = some "false".data ∧
       Hmac.normalizedBodyOf (some (.str "")) = some "\"\"".data) ∧
      ("0".data ≠ ([] : List Char) ∧ "false".data ≠ ([] : List Char) ∧
       "\"\"".data ≠ ([] : List Char)) := by
  intro sha256hex
  refine ⟨⟨rfl, rfl, rfl, rfl⟩, ⟨by decide, by decide, by decide⟩,
    by decide, by decide, by decide⟩

/-- Witness for C10: the statement instantiated with the identity
digest. -/
theorem C10_falsy_bodies_witness :
    Hmac.hashBody (fun l => l) (some (.num 0)) = [] ∧
    Hmac.normalizedBodyOf (some (.num 0)) = some "0".data :=
  ⟨(C10_falsy_bodies (fun l => l)).1.1, (C10_falsy_bodies (fun l => l)).2.1.1⟩

/-- C4 (amended): every request failing path validation or the local
bearer-token check is answered locally — `proxyPrepare` returns an
`ErrorResponse`, so no `ForwardedRequest` exists and no upstream call is
made — with status 500 (path) or 401 (missing token), the path failures
all carrying the same masked `INVALID_SIGNATURE` code; but the response
`error` text does identify which specific check failed. -/
theorem C4_local_rejections (sha256hex : List Char → List Char)
    (hmacSha256hex : List Char → List Char → List Char)
    (secret : List Char) (bffId : String) (input : Route.ProxyInput) :
    (∀ e : BffException, Route.validatePathSegments input.pathSegments = .error e →
      Route.proxyPrepare sha256hex hmacSha256hex secret bffId input =
        .error { status := 500, error := e.message, message := none, code := some e.code }) ∧
    (Route.validatePathSegments input.pathSegments = .ok () → secret ≠ [] →
      input.authToken = none →
      Route.isPublicRoute (Route.laravelPathOf input) = false →
      Route.proxyPrepare sha256hex hmacSha256hex secret bffId input =
        .error { status := 401, error := "Unauthorized",
                 message := some "No auth token found", code := none }) :=
  ⟨fun e he => proxyPrepare_pathError sha256hex hmacSha256hex secret bffId input e he,
   fun hpath hsec hauth hpub =>
     proxyPrepare_noCookie401 sha256hex hmacSha256hex secret bffId input hpath hsec
       (by rw [hauth]; rfl) hpub⟩

/-- Counterexample to C4 as stated: two locally rejected requests receive
distinct error messages naming the failing check — the body is not a
generic message. -/
theorem C4_counterexample :
    Route.proxyPrepare (fun l => l) (fun s p => s ++ p) ['s'] "bff"
        ⟨[".."], "GET", false, none, none, 0⟩ =
      .error ⟨500, "Invalid path: traversal not allowed", none, some .INVALID_SIGNATURE⟩ ∧
    Route.proxyPrepare (fun l => l) (fun s p => s ++ p) ['s'] "bff"
        ⟨["a b"], "GET", false, none, none, 0⟩ =
      .error ⟨500, "Invalid path: forbidden characters", none, some .INVALID_SIGNATURE⟩ ∧
    ("Invalid path: traversal not allowed" : String) ≠
      "Invalid path: forbidden characters" := by
  decide

/-- Witness for C4: the amended statement applied to a traversal
attempt. -/
theorem C4_local_rejections_witness :
    Route.proxyPrepare (fun l => l) (fun s p => s ++ p) ['s'] "bff"
        ⟨[".."], "GET", false, none, none, 0⟩ =
      .error { status := 500, error := "Invalid path: traversal not allowed",
               message := none, code := some BffErrorCode.INVALID_SIGNATURE } :=
  (C4_local_rejections (fun l => l) (fun s p => s ++ p) ['s'] "bff"
      ⟨[".."], "GET", false, none, none, 0⟩).1
    ⟨.INVALID_SIGNATURE, "Invalid path: traversal not allowed"⟩ (by decide)

/-- C8 (amended): when the `auth_token` cookie is absent **or present
with an empty value** (the code tests `if (authToken)`, JavaScript
truthiness), a request whose target path does not match the public-route
allow-list (login, register, list-providers — matched as the code does,
by prefix) is answered 401 locally with no upstream call; when the path
matches the allow-list the request is forwarded carrying the three HMAC
headers and no `Authorization` header; and a cookie present with a
non-empty value is attached as `Authorization: Bearer`. -/
theorem C8_bearer_token_policy (sha256hex : List Char → List Char)
    (hmacSha256hex : List Char → List Char → List Char)
    (secret : List Char) (bffId : String) (input : Route.ProxyInput)
    (hpath : Route.validatePathSegments input.pathSegments = .ok ())
    (hsec : secret ≠ []) :
    (Route.tokenTruthy input.authToken = false →
      Route.isPublicRoute (Route.laravelPathOf input) = false →
      Route.proxyPrepare sha256hex hmacSha256hex secret bffId input =
        .error { status := 401, error := "Unauthorized",
                 message := some "No auth token found", code := none }) ∧
    (Route.tokenTruthy input.authToken = false →
      Route.isPublicRoute (Route.laravelPathOf input) = true →
      Route.proxyPrepare sha256hex hmacSha256hex secret bffId input =
        .ok { laravelPath := Route.laravelPathOf input,
              headers := Route.baseHeaders ⟨bffId, natToDecimal input.timestamp,
                hmacSha256hex secret (natToDecimal input.timestamp ++ ':' ::
                  input.method.data ++ ':' :: (Route.laravelPathOf input).data ++ ':' ::
                  Hmac.hashBody sha256hex (Route.signedBodyOf input)),
                Hmac.normalizedBodyOf (Route.signedBodyOf input)⟩,
              body := Hmac.normalizedBodyOf (Route.signedBodyOf input) }) ∧
    (∀ tok : String, input.authToken = some tok → tok ≠ "" →
      Route.proxyPrepare sha256hex hmacSha256hex secret bffId input =
        .ok { laravelPath := Route.laravelPathOf input,
              headers := Route.baseHeaders ⟨bffId, natToDecimal input.timestamp,
                hmacSha256hex secret (natToDecimal input.timestamp ++ ':' ::
                  input.method.data ++ ':' :: (Route.laravelPathOf input).data ++ ':' ::
                  Hmac.hashBody sha256hex (Route.signedBodyOf input)),
                Hmac.normalizedBodyOf (Route.signedBodyOf input)⟩ ++
                [("Authorization", "Bearer " ++ tok)],
              body := Hmac.normalizedBodyOf (Route.signedBodyOf input) }) :=
  ⟨fun hauth hpub =>
     proxyPrepare_noCookie401 sha256hex hmacSha256hex secret bffId input hpath hsec
       hauth hpub,
   fun hauth hpub =>
     proxyPrepare_public_ok sha256hex hmacSha256hex secret bffId input hpath hsec
       hauth hpub,
   fun tok hauth htok =>
     proxyPrepare_cookie_ok sha256hex hmacSha256hex secret bffId input tok hpath hsec
       hauth htok⟩

/-- Counterexample to C8 as stated: an `auth_token` cookie that is
present but empty (`Cookie: auth_token=`) is **not** attached as a
bearer header — `if (authToken)` is falsy on the empty string, so a
non-public request is answered 401 locally exactly as if the cookie were
absent. -/
theorem C8_counterexample :
    (some "" : Option String).isSome = true ∧
    Route.proxyPrepare (fun l => l) (fun s p => s ++ p) ['s'] "bff"
        ⟨["users", "42"], "GET", false, none, some "", 7⟩ =
      .error { status := 401, error := "Unauthorized",
               message := some "No auth token found", code := none } := by
  decide

/-- Witness for C8: a request carrying the non-empty cookie value `tok`
to a validated path is forwarded with `Authorization: Bearer tok`
appended after the base headers. -/
theorem C8_bearer_token_policy_witness :
    Route.proxyPrepare (fun l => l) (fun s p => s ++ p) ['s'] "bff"
        ⟨["users", "42"], "GET", false, none, some "tok", 7⟩ =
      .ok { laravelPath :=
              Route.laravelPathOf ⟨["users", "42"], "GET", false, none, some "tok", 7⟩,
            headers := Route.baseHeaders ⟨"bff", natToDecimal 7,
              (fun s p => s ++ p) ['s'] (natToDecimal 7 ++ ':' :: "GET".data ++ ':' ::
                (Route.laravelPathOf
                  ⟨["users", "42"], "GET", false, none, some "tok", 7⟩).data ++ ':' ::
                Hmac.hashBody (fun l => l) (Route.signedBodyOf
                  ⟨["users", "42"], "GET", false, none, some "tok", 7⟩)),
              Hmac.normalizedBodyOf (Route.signedBodyOf
                ⟨["users", "42"], "GET", false, none, some "tok", 7⟩)⟩ ++
              [("Authorization", "Bearer " ++ "tok")],
            body := Hmac.normalizedBodyOf (Route.signedBodyOf
              ⟨["users", "42"], "GET", false, none, some "tok", 7⟩) } :=
  (C8_bearer_token_policy (fun l => l) (fun s p => s ++ p) ['s'] "bff"
      ⟨["users", "42"], "GET", false, none, some "tok", 7⟩ (by decide) (by decide)).2.2
    "tok" rfl (by decide)

